import Mathlib

/-!
Verification of the editor core of `offline-judge-cli`
(`src/editor/src/algorithms.rs`, `src/editor/src/editor.rs`).

`usize`/`u32` are modelled as `Nat`: `saturating_sub` is `Nat` subtraction
(which truncates at 0) and `saturating_add` is plain addition (the model has
no upper bound; the editor never approaches 2^64 lines).  `i64` is `Int`.
-/

set_option maxHeartbeats 800000

namespace OJEdit

/-! ### DirtyLines (`algorithms.rs`)

`DirtyLines.ranges` is a `Vec<(usize, usize)>` of closed intervals
`[start, end]`, kept (per the source comment) disjoint, sorted and
non-adjacent. -/

abbrev Ranges := List (Nat × Nat)

/-- The invariant stated by the source comment on `DirtyLines.ranges`
(不重疊、已排序的閉區間): intervals are pairwise ordered with a gap of at
least 2 between an interval's end and the next start (so no two can merge),
and each interval is non-degenerate. -/
def RangesInv (rs : Ranges) : Prop :=
  rs.Pairwise (fun a b => a.2 + 1 < b.1) ∧ ∀ r ∈ rs, r.1 ≤ r.2

instance (rs : Ranges) : Decidable (RangesInv rs) := by
  unfold RangesInv; infer_instance

/-- `DirtyLines::mark_inclusive_range`.  The source locates
`i_start = partition_point (|(_, e)| e < start.saturating_sub(1))`, scans
forward while `s <= end + 1` accumulating the merged bounds, then splices
the scanned intervals into one (or inserts if none was scanned).  On input
satisfying the sortedness invariant — the only way the structure is ever
built — `partition_point` returns exactly the length of the matching
`takeWhile` run, which is how it is modelled here; the scan-and-splice is
the `takeWhile`/`dropWhile`/`foldl` below. -/
def markInclusiveRange (rs : Ranges) (s e : Nat) : Ranges :=
  if s > e then rs
  else
    let before := rs.takeWhile (fun r => decide (r.2 < s - 1))
    let rest := rs.dropWhile (fun r => decide (r.2 < s - 1))
    let toMerge := rest.takeWhile (fun r => decide (r.1 ≤ e + 1))
    let after := rest.dropWhile (fun r => decide (r.1 ≤ e + 1))
    let ns := toMerge.foldl (fun a r => min a r.1) s
    let ne := toMerge.foldl (fun a r => max a r.2) e
    before ++ (ns, ne) :: after

/-- The three `MarkIndex` implementations: a single `usize`, a half-open
`Range<usize>`, and a closed `RangeInclusive<usize>`. -/
inductive MarkArg
  | single (n : Nat)
  | halfOpen (s e : Nat)
  | closed (s e : Nat)
deriving DecidableEq

/-- `MarkIndex::to_range`.  A half-open range `s..e` is empty iff
`¬ (s < e)` and then normalizes to `(s, s)`; a closed range `s..=e` is
empty iff `¬ (s ≤ e)` and then also normalizes to `(s, s)`. -/
def MarkArg.toRange : MarkArg → Nat × Nat
  | .single n => (n, n)
  | .halfOpen s e => if s < e then (s, e - 1) else (s, s)
  | .closed s e => if s ≤ e then (s, e) else (s, s)

/-- `DirtyLines::mark`. -/
def mark (rs : Ranges) (a : MarkArg) : Ranges :=
  markInclusiveRange rs a.toRange.1 a.toRange.2

/-- `DirtyLines::is_marked`.  The source runs `binary_search_by` with the
three-way comparator `Greater if line < start, Less if line > end, Equal
otherwise` and returns `is_ok()`.  On a slice satisfying the sortedness
invariant the search succeeds exactly when some interval compares `Equal`,
i.e. contains `line`. -/
def isMarked (rs : Ranges) (line : Nat) : Bool :=
  rs.any (fun r => decide (r.1 ≤ line) && decide (line ≤ r.2))

/-- Loop body of `DirtyRangesIter::next`, iterated to exhaustion: for each
remaining interval, stop if `s >= query_end` (exclusive), otherwise clip to
`[max s query_start, min e (query_end - 1)]` and yield when non-empty. -/
def collectDirtyRanges (qs qe : Nat) : Ranges → Ranges
  | [] => []
  | r :: t =>
    if r.1 ≥ qe then []
    else
      let istart := max r.1 qs
      let iend := min r.2 (qe - 1)
      if istart ≤ iend then (istart, iend) :: collectDirtyRanges qs qe t
      else collectDirtyRanges qs qe t

/-- `DirtyLines::iter_dirty_ranges`, collected into a list.  The source
finds `binary_search_by(|&(_, e)| e.cmp(&query_start))` and then advances
linearly past intervals with `e < query_start`; on a slice satisfying the
sortedness invariant that lands on the first interval with
`e ≥ query_start`, i.e. after the `dropWhile` below.  `query_end` is the
inclusive end plus one (`saturating_add`). -/
def iterDirtyRanges (rs : Ranges) (a : MarkArg) : Ranges :=
  let q := a.toRange
  let rest := rs.dropWhile (fun r => decide (r.2 < q.1))
  collectDirtyRanges q.1 (q.2 + 1) rest

/-- Clipping an interval to the closed query `[qs, qe]`: the value
`iter_dirty_ranges` yields for an interval that intersects the query. -/
def clipTo (qs qe : Nat) (r : Nat × Nat) : Option (Nat × Nat) :=
  if max r.1 qs ≤ min r.2 qe then some (max r.1 qs, min r.2 qe) else none

/-! #### Helper lemmas for the merge fold -/

lemma foldl_min_le (l : Ranges) (a : Nat) :
    l.foldl (fun acc r => min acc r.1) a ≤ a := by
  induction l generalizing a with
  | nil => simp
  | cons r t ih => exact le_trans (ih (min a r.1)) (Nat.min_le_left _ _)

lemma le_foldl_max (l : Ranges) (a : Nat) :
    a ≤ l.foldl (fun acc r => max acc r.2) a := by
  induction l generalizing a with
  | nil => simp
  | cons r t ih => exact le_trans (Nat.le_max_left _ _) (ih (max a r.2))

lemma lt_foldl_min_iff (l : Ranges) (a m : Nat) :
    m < l.foldl (fun acc r => min acc r.1) a ↔ m < a ∧ ∀ r ∈ l, m < r.1 := by
  induction l generalizing a with
  | nil => simp
  | cons r t ih =>
    simp only [List.foldl_cons, ih, List.forall_mem_cons, Nat.lt_min]
    tauto

lemma foldl_max_lt_iff (l : Ranges) (a m : Nat) :
    l.foldl (fun acc r => max acc r.2) a < m ↔ a < m ∧ ∀ r ∈ l, r.2 < m := by
  induction l generalizing a with
  | nil => simp
  | cons r t ih =>
    simp only [List.foldl_cons, ih, List.forall_mem_cons, Nat.max_lt]
    tauto

/-- Pointwise description of the merged interval: when every scanned
interval touches or overlaps the window `[s, e]` (the `mark` scan
condition), the merged interval `[min starts, max ends]` covers exactly
the union of the scanned intervals and the window. -/
lemma foldl_window_mem (l : Ranges) (s e x : Nat) (hse : s ≤ e)
    (hb : ∀ r ∈ l, r.1 ≤ e + 1 ∧ s ≤ r.2 + 1 ∧ r.1 ≤ r.2) :
    (l.foldl (fun acc r => min acc r.1) s ≤ x ∧
        x ≤ l.foldl (fun acc r => max acc r.2) e) ↔
      ((s ≤ x ∧ x ≤ e) ∨ ∃ r ∈ l, r.1 ≤ x ∧ x ≤ r.2) := by
  induction l generalizing s e with
  | nil => simp
  | cons r t ih =>
    obtain ⟨hr1, hr2, hr3⟩ := hb r (List.mem_cons_self _ _)
    have hb' : ∀ r' ∈ t,
        r'.1 ≤ max e r.2 + 1 ∧ min s r.1 ≤ r'.2 + 1 ∧ r'.1 ≤ r'.2 := by
      intro r' hr'
      obtain ⟨h1, h2, h3⟩ := hb r' (List.mem_cons_of_mem _ hr')
      omega
    have hse' : min s r.1 ≤ max e r.2 := by omega
    simp only [List.foldl_cons]
    rw [ih (min s r.1) (max e r.2) hse' hb']
    constructor
    · rintro (⟨h1, h2⟩ | ⟨r', hr', hx⟩)
      · by_cases hx1 : x < s
        · exact Or.inr ⟨r, List.mem_cons_self _ _, by omega⟩
        · by_cases hx2 : e < x
          · exact Or.inr ⟨r, List.mem_cons_self _ _, by omega⟩
          · exact Or.inl (by omega)
      · exact Or.inr ⟨r', List.mem_cons_of_mem _ hr', hx⟩
    · rintro (hx | ⟨r', hr', hx⟩)
      · exact Or.inl (by omega)
      · rcases List.mem_cons.mp hr' with rfl | hmem
        · exact Or.inl (by omega)
        · exact Or.inr ⟨r', hmem, hx⟩

lemma dropWhile_head_false {α : Type} (p : α → Bool) :
    ∀ (l : List α) (a : α) (t : List α), l.dropWhile p = a :: t → p a = false := by
  intro l
  induction l with
  | nil => intro a t h; simp [List.dropWhile] at h
  | cons b bs ih =>
    intro a t h
    rw [List.dropWhile_cons] at h
    by_cases hb : p b = true
    · rw [if_pos hb] at h
      exact ih _ _ h
    · rw [if_neg hb] at h
      cases h
      simpa using hb

/-- Bool-to-Prop description of `isMarked`. -/
lemma isMarked_iff (rs : Ranges) (x : Nat) :
    isMarked rs x = true ↔ ∃ r ∈ rs, r.1 ≤ x ∧ x ≤ r.2 := by
  simp [isMarked, List.any_eq_true]

/-- Core specification of `mark_inclusive_range` on a non-empty window:
the invariant is preserved and the marked set grows by exactly `[s, e]`. -/
lemma markInclusiveRange_spec (rs : Ranges) (s e : Nat)
    (h : RangesInv rs) (hse : s ≤ e) :
    RangesInv (markInclusiveRange rs s e) ∧
      ∀ x, (isMarked (markInclusiveRange rs s e) x = true ↔
        (isMarked rs x = true ∨ (s ≤ x ∧ x ≤ e))) := by
  obtain ⟨hpw, hnd⟩ := h
  simp only [markInclusiveRange]
  rw [if_neg (by omega)]
  set p1 : Nat × Nat → Bool := fun r => decide (r.2 < s - 1) with hp1def
  set p2 : Nat × Nat → Bool := fun r => decide (r.1 ≤ e + 1) with hp2def
  set before := rs.takeWhile p1 with hbdef
  set rest := rs.dropWhile p1 with hrdef
  set toMerge := rest.takeWhile p2 with htmdef
  set after := rest.dropWhile p2 with hafdef
  set ns := toMerge.foldl (fun a r => min a r.1) s with hnsdef
  set ne := toMerge.foldl (fun a r => max a r.2) e with hnedef
  have hrs2 : rs = before ++ (toMerge ++ after) := by
    rw [htmdef, hafdef, List.takeWhile_append_dropWhile,
      hbdef, hrdef, List.takeWhile_append_dropWhile]
  have hrest2 : rest = toMerge ++ after :=
    (List.takeWhile_append_dropWhile p2 rest).symm
  -- decompose the pairwise hypothesis
  rw [hrs2, List.pairwise_append] at hpw
  obtain ⟨hpwB, hpwTA, hcrossB⟩ := hpw
  rw [List.pairwise_append] at hpwTA
  obtain ⟨hpwT, hpwA, hcrossTA⟩ := hpwTA
  have hndB : ∀ r ∈ before, r.1 ≤ r.2 := fun r hr =>
    hnd r (hrs2 ▸ List.mem_append_left _ hr)
  have hndT : ∀ r ∈ toMerge, r.1 ≤ r.2 := fun r hr =>
    hnd r (hrs2 ▸ List.mem_append_right _ (List.mem_append_left _ hr))
  have hndA : ∀ r ∈ after, r.1 ≤ r.2 := fun r hr =>
    hnd r (hrs2 ▸ List.mem_append_right _ (List.mem_append_right _ hr))
  -- facts from the scan conditions
  have hbeforeF : ∀ r ∈ before, r.2 < s - 1 := by
    intro r hr
    have := List.mem_takeWhile_imp hr
    rw [hp1def] at this
    simpa using this
  have htm1 : ∀ r ∈ toMerge, r.1 ≤ e + 1 := by
    intro r hr
    have := List.mem_takeWhile_imp hr
    rw [hp2def] at this
    simpa using this
  have htm2 : ∀ r ∈ toMerge, s ≤ r.2 + 1 := by
    intro r hr
    rcases hrest0 : rest with _ | ⟨r0, rtail⟩
    · rw [htmdef, hrest0] at hr; simp at hr
    · have hr0 : s - 1 ≤ r0.2 := by
        have := dropWhile_head_false p1 rs r0 rtail (hrdef ▸ hrest0)
        rw [hp1def] at this
        simpa using this
      have hrmem : r ∈ rest := (List.takeWhile_sublist p2).subset hr
      rw [hrest0] at hrmem
      rcases List.mem_cons.mp hrmem with rfl | hmem
      · omega
      · have hpwRest : rest.Pairwise (fun a b => a.2 + 1 < b.1) := by
          rw [hrest2, List.pairwise_append]
          exact ⟨hpwT, hpwA, hcrossTA⟩
        rw [hrest0, List.pairwise_cons] at hpwRest
        have h1 := hpwRest.1 r hmem
        have h2 : r.1 ≤ r.2 := by
          apply hnd
          rw [hrs2]
          exact List.mem_append_right _ (List.mem_append_left _ hr)
        omega
  have hafterF : ∀ a ∈ after, e + 1 < a.1 := by
    intro a ha
    rcases haf0 : after with _ | ⟨a0, atail⟩
    · rw [haf0] at ha; simp at ha
    · have ha0 : ¬ (a0.1 ≤ e + 1) := by
        have := dropWhile_head_false p2 rest a0 atail (hafdef ▸ haf0)
        rw [hp2def] at this
        simpa using this
      rw [haf0] at ha
      rcases List.mem_cons.mp ha with rfl | hmem
      · omega
      · have hpwA' := hpwA
        rw [haf0, List.pairwise_cons] at hpwA'
        have h1 := hpwA'.1 a hmem
        have h2 : a0.1 ≤ a0.2 := hndA a0 (by rw [haf0]; exact List.mem_cons_self _ _)
        omega
  have hns_le : ns ≤ s := foldl_min_le _ _
  have hne_ge : e ≤ ne := le_foldl_max _ _
  constructor
  · -- the invariant is preserved
    constructor
    · rw [List.pairwise_append]
      refine ⟨hpwB, ?_, ?_⟩
      · rw [List.pairwise_cons]
        refine ⟨?_, hpwA⟩
        intro a ha
        have h1 : ne < a.1 - 1 := by
          rw [hnedef, foldl_max_lt_iff]
          have := hafterF a ha
          refine ⟨by omega, ?_⟩
          intro r hr
          have := hcrossTA r hr a ha
          omega
        have := hafterF a ha
        omega
      · intro b hb x hx
        rcases List.mem_cons.mp hx with rfl | hmem
        · show b.2 + 1 < ns
          rw [hnsdef, lt_foldl_min_iff]
          have := hbeforeF b hb
          refine ⟨by omega, ?_⟩
          intro r hr
          exact hcrossB b hb r (List.mem_append_left _ hr)
        · exact hcrossB b hb x (List.mem_append_right _ hmem)
    · intro r hr
      rcases List.mem_append.mp hr with hm | hm
      · exact hndB r hm
      · rcases List.mem_cons.mp hm with rfl | hmem
        · show ns ≤ ne
          omega
        · exact hndA r hmem
  · -- the marked set grows by exactly [s, e]
    intro x
    have hwin := foldl_window_mem toMerge s e x hse
      (fun r hr => ⟨htm1 r hr, htm2 r hr, hndT r hr⟩)
    rw [isMarked_iff, isMarked_iff, hrs2]
    simp only [List.mem_append, List.mem_cons]
    constructor
    · rintro ⟨r, hmem, hx⟩
      rcases hmem with hm | hm | hm
      · exact Or.inl ⟨r, Or.inl hm, hx⟩
      · subst hm
        rcases hwin.mp hx with hw | ⟨r', hr', hx'⟩
        · exact Or.inr hw
        · exact Or.inl ⟨r', Or.inr (Or.inl hr'), hx'⟩
      · exact Or.inl ⟨r, Or.inr (Or.inr hm), hx⟩
    · rintro (⟨r, hmem, hx⟩ | hx)
      · rcases hmem with hm | hm | hm
        · exact ⟨r, Or.inl hm, hx⟩
        · exact ⟨(ns, ne), Or.inr (Or.inl rfl), hwin.mpr (Or.inr ⟨r, hm, hx⟩)⟩
        · exact ⟨r, Or.inr (Or.inr hm), hx⟩
      · exact ⟨(ns, ne), Or.inr (Or.inl rfl), hwin.mpr (Or.inl hx)⟩

lemma markInclusiveRange_inv (rs : Ranges) (s e : Nat) (h : RangesInv rs) :
    RangesInv (markInclusiveRange rs s e) := by
  by_cases hse : s > e
  · simp only [markInclusiveRange]
    rw [if_pos hse]
    exact h
  · exact (markInclusiveRange_spec rs s e h (by omega)).1

lemma isMarked_markInclusiveRange (rs : Ranges) (s e x : Nat) (h : RangesInv rs) :
    isMarked (markInclusiveRange rs s e) x = true ↔
      isMarked rs x = true ∨ (s ≤ x ∧ x ≤ e) := by
  by_cases hse : s > e
  · simp only [markInclusiveRange]
    rw [if_pos hse]
    constructor
    · exact Or.inl
    · rintro (hm | hm)
      · exact hm
      · omega
  · exact (markInclusiveRange_spec rs s e h (by omega)).2 x

lemma mark_inv (rs : Ranges) (a : MarkArg) (h : RangesInv rs) :
    RangesInv (mark rs a) :=
  markInclusiveRange_inv _ _ _ h

lemma isMarked_mark (rs : Ranges) (a : MarkArg) (x : Nat) (h : RangesInv rs) :
    isMarked (mark rs a) x = true ↔
      isMarked rs x = true ∨ (a.toRange.1 ≤ x ∧ x ≤ a.toRange.2) :=
  isMarked_markInclusiveRange _ _ _ _ h

lemma rangesInv_nil : RangesInv [] := ⟨List.Pairwise.nil, by simp⟩

lemma foldl_mark_inv (args : List MarkArg) (init : Ranges) (h : RangesInv init) :
    RangesInv (args.foldl mark init) := by
  induction args generalizing init with
  | nil => exact h
  | cons a t ih => exact ih (mark init a) (mark_inv init a h)

lemma isMarked_foldl_mark (args : List MarkArg) (init : Ranges)
    (h : RangesInv init) (x : Nat) :
    isMarked (args.foldl mark init) x = true ↔
      isMarked init x = true ∨ ∃ a ∈ args, a.toRange.1 ≤ x ∧ x ≤ a.toRange.2 := by
  induction args generalizing init with
  | nil => simp
  | cons a t ih =>
    rw [List.foldl_cons, ih (mark init a) (mark_inv init a h),
      isMarked_mark init a x h]
    simp only [List.mem_cons]
    constructor
    · rintro ((hm | hm) | ⟨b, hb, hx⟩)
      · exact Or.inl hm
      · exact Or.inr ⟨a, Or.inl rfl, hm⟩
      · exact Or.inr ⟨b, Or.inr hb, hx⟩
    · rintro (hm | ⟨b, hb, hx⟩)
      · exact Or.inl (Or.inl hm)
      · rcases hb with rfl | hb
        · exact Or.inl (Or.inr hx)
        · exact Or.inr ⟨b, hb, hx⟩

example : mark [] (MarkArg.single 5) = [(5, 5)] := by decide
example :
    [MarkArg.single 5, MarkArg.single 10, MarkArg.single 6].foldl mark []
      = [(5, 6), (10, 10)] := by decide
example : mark [] (MarkArg.halfOpen 10 10) = [(10, 10)] := by decide
example :
    iterDirtyRanges [(5, 9), (15, 19)] (MarkArg.closed 8 16)
      = [(8, 9), (15, 16)] := by decide

/-- C1: for every sequence of `DirtyLines::mark` calls (single index,
half-open range, or closed range) starting from `DirtyLines::new()`, the
resulting interval vector is sorted by start, mutually disjoint, and no
two consecutive intervals satisfy `end_i + 1 ≥ start_{i+1}` (`RangesInv`
is exactly that: `Pairwise (fun a b => a.2 + 1 < b.1)` plus
non-degeneracy).  Quantifying over all call sequences makes the invariant
hold after every individual `mark` call, since every prefix of a sequence
is itself a sequence. -/
theorem c1_dirty_lines_merge_invariant (args : List MarkArg) :
    RangesInv (args.foldl mark []) :=
  foldl_mark_inv args [] rangesInv_nil

/-- C2: after any sequence of `mark` calls starting from
`DirtyLines::new()`, `is_marked x` is true iff `x` lies in the union of
the marked ranges passed in so far (each range taken after the source's
`MarkIndex::to_range` normalization; the C4 analysis records that an
empty range still normalizes to the single line `start`).  The right-hand
side is order-independent, and the stated scenario mark(5), mark(10),
mark(6) yields ranges `[(5,6),(10,10)]` with `is_marked 6` true and
`is_marked 7` false. -/
theorem c2_is_marked_iff_union (args : List MarkArg) (x : Nat) :
    (isMarked (args.foldl mark []) x = true ↔
      ∃ a ∈ args, a.toRange.1 ≤ x ∧ x ≤ a.toRange.2) ∧
    ([MarkArg.single 5, MarkArg.single 10, MarkArg.single 6].foldl mark []
        = [(5, 6), (10, 10)] ∧
      isMarked ([MarkArg.single 5, MarkArg.single 10,
        MarkArg.single 6].foldl mark []) 6 = true ∧
      isMarked ([MarkArg.single 5, MarkArg.single 10,
        MarkArg.single 6].foldl mark []) 7 = false) := by
  refine ⟨?_, by decide, by decide, by decide⟩
  rw [isMarked_foldl_mark args [] rangesInv_nil x]
  simp [isMarked]

/-- C4 counterexample: the claim says a `mark` with an empty half-open
range (`start == end`) leaves the interval set unchanged and marks no
line.  In the code `MarkIndex::to_range` normalizes the empty range
`10..10` to the closed single-line range `(10, 10)` (see also the source
test `test_mark_range_half_open`), so marking it on a fresh `DirtyLines`
stores `(10, 10)` and marks line 10. -/
theorem c4_counterexample_empty_range_marks :
    mark [] (MarkArg.halfOpen 10 10) = [(10, 10)] ∧
      mark [] (MarkArg.halfOpen 10 10) ≠ [] ∧
      isMarked (mark [] (MarkArg.halfOpen 10 10)) 10 = true := by
  decide

/-- C4 amended: `mark` of an empty half-open range (`start == end`) or of
a reversed inclusive range (`end < start`) never panics, but it is not a
no-op: `to_range` normalizes both to the single-line closed range
`(start, start)`, which marks line `start`.  Only a direct
`mark_inclusive_range` call whose `start` exceeds its `end` (a situation
`to_range` never produces) leaves the set unchanged. -/
theorem c4_amended_empty_range_normalizes (rs : Ranges) (s e : Nat)
    (h : e < s) :
    MarkArg.toRange (.halfOpen s s) = (s, s) ∧
      MarkArg.toRange (.closed s e) = (s, s) ∧
      markInclusiveRange rs s e = rs ∧
      mark rs (MarkArg.halfOpen s s) = markInclusiveRange rs s s := by
  have ht : MarkArg.toRange (.halfOpen s s) = (s, s) := by
    simp [MarkArg.toRange]
  refine ⟨ht, ?_, ?_, ?_⟩
  · simp only [MarkArg.toRange]
    rw [if_neg (by omega)]
  · simp only [markInclusiveRange]
    rw [if_pos (by omega)]
  · simp only [mark, ht]

theorem c4_amended_witness :
    (9 < 10) ∧
      (MarkArg.toRange (.halfOpen 10 10) = (10, 10) ∧
        MarkArg.toRange (.closed 10 9) = (10, 10) ∧
        markInclusiveRange [(3, 4)] 10 9 = [(3, 4)] ∧
        mark [(3, 4)] (MarkArg.halfOpen 10 10) = markInclusiveRange [(3, 4)] 10 10) :=
  ⟨by decide, c4_amended_empty_range_normalizes [(3, 4)] 10 9 (by decide)⟩

/-! #### `iter_dirty_ranges` (C7) -/

lemma collectDirtyRanges_eq_filterMap (qs qe1 : Nat) (l : Ranges)
    (hpw : l.Pairwise (fun a b => a.2 + 1 < b.1)) (hnd : ∀ r ∈ l, r.1 ≤ r.2) :
    collectDirtyRanges qs (qe1 + 1) l = l.filterMap (clipTo qs qe1) := by
  induction l with
  | nil => simp [collectDirtyRanges]
  | cons r t ih =>
    rw [List.pairwise_cons] at hpw
    have hrd : r.1 ≤ r.2 := hnd r (List.mem_cons_self _ _)
    rw [List.filterMap_cons]
    by_cases h1 : r.1 ≥ qe1 + 1
    · rw [collectDirtyRanges, if_pos h1]
      have hr : clipTo qs qe1 r = none := by
        rw [clipTo, if_neg (by omega)]
      rw [hr]
      symm
      rw [List.filterMap_eq_nil_iff]
      intro x hx
      have h2 := hpw.1 x hx
      rw [clipTo, if_neg (by omega)]
    · rw [collectDirtyRanges, if_neg h1]
      have hqe : qe1 + 1 - 1 = qe1 := by omega
      by_cases h2 : max r.1 qs ≤ min r.2 (qe1 + 1 - 1)
      · rw [if_pos h2, clipTo, if_pos (by omega)]
        rw [ih hpw.2 (fun x hx => hnd x (List.mem_cons_of_mem _ hx))]
        rw [hqe]
      · rw [if_neg h2, clipTo, if_neg (by omega)]
        exact ih hpw.2 (fun x hx => hnd x (List.mem_cons_of_mem _ hx))

lemma iterDirtyRanges_eq_filterMap (rs : Ranges) (a : MarkArg)
    (h : RangesInv rs) :
    iterDirtyRanges rs a = rs.filterMap (clipTo a.toRange.1 a.toRange.2) := by
  obtain ⟨hpw, hnd⟩ := h
  simp only [iterDirtyRanges]
  set qs := a.toRange.1 with hqs
  set qe1 := a.toRange.2 with hqe1
  set p : Nat × Nat → Bool := fun r => decide (r.2 < qs) with hpdef
  set pfx := rs.takeWhile p with hpfx
  set rest := rs.dropWhile p with hrest
  have hrs2 : rs = pfx ++ rest := (List.takeWhile_append_dropWhile p rs).symm
  rw [hrs2, List.pairwise_append] at hpw
  have hcollect : collectDirtyRanges qs (qe1 + 1) rest
      = rest.filterMap (clipTo qs qe1) :=
    collectDirtyRanges_eq_filterMap qs qe1 rest hpw.2.1
      (fun r hr => hnd r (hrs2 ▸ List.mem_append_right _ hr))
  rw [hcollect]
  have hpfxNone : pfx.filterMap (clipTo qs qe1) = [] := by
    rw [List.filterMap_eq_nil_iff]
    intro r hr
    have := List.mem_takeWhile_imp hr
    rw [hpdef] at this
    simp only [decide_eq_true_eq] at this
    rw [clipTo, if_neg (by omega)]
  conv_rhs => rw [hrs2]
  rw [List.filterMap_append, hpfxNone, List.nil_append]

/-- C7: for a `DirtyLines` state satisfying the sorted/disjoint invariant
and any query range, collecting `iter_dirty_ranges` yields exactly the
original intervals that intersect the query, clipped to the query bounds,
in increasing order (hence the intersection of the marked set with the
query, partitioned into maximal contiguous closed sub-ranges): it equals
the order-preserving clip-filter of the interval list, the output is again
sorted/disjoint/non-adjacent, every yielded pair lies inside the query,
and a line is covered by the output iff it is marked and inside the
query. -/
theorem c7_iter_dirty_ranges_correct (rs : Ranges) (a : MarkArg)
    (h : RangesInv rs) :
    iterDirtyRanges rs a = rs.filterMap (clipTo a.toRange.1 a.toRange.2) ∧
      (iterDirtyRanges rs a).Pairwise (fun p q => p.2 + 1 < q.1) ∧
      (∀ p ∈ iterDirtyRanges rs a,
        a.toRange.1 ≤ p.1 ∧ p.1 ≤ p.2 ∧ p.2 ≤ a.toRange.2) ∧
      ∀ x, ((∃ p ∈ iterDirtyRanges rs a, p.1 ≤ x ∧ x ≤ p.2) ↔
        (isMarked rs x = true ∧ a.toRange.1 ≤ x ∧ x ≤ a.toRange.2)) := by
  have heq := iterDirtyRanges_eq_filterMap rs a h
  obtain ⟨hpw, hnd⟩ := h
  refine ⟨heq, ?_, ?_, ?_⟩
  · rw [heq]
    refine List.Pairwise.filterMap _ ?_ hpw
    intro r r' hrr p hp p' hp'
    simp only [clipTo] at hp hp'
    split at hp
    · cases hp
      split at hp'
      · cases hp'
        simp only
        omega
      · cases hp'
    · cases hp
  · intro p hp
    rw [heq] at hp
    rw [List.mem_filterMap] at hp
    obtain ⟨r, _, hr⟩ := hp
    rw [clipTo] at hr
    split at hr
    · cases hr
      simp only
      omega
    · cases hr
  · intro x
    rw [heq, isMarked_iff]
    constructor
    · rintro ⟨p, hp, hx⟩
      rw [List.mem_filterMap] at hp
      obtain ⟨r, hrmem, hr⟩ := hp
      rw [clipTo] at hr
      split at hr
      · cases hr
        simp only at hx
        exact ⟨⟨r, hrmem, by omega⟩, by omega, by omega⟩
      · cases hr
    · rintro ⟨⟨r, hrmem, hx⟩, hq1, hq2⟩
      refine ⟨(max r.1 a.toRange.1, min r.2 a.toRange.2), ?_, by omega⟩
      rw [List.mem_filterMap]
      exact ⟨r, hrmem, by rw [clipTo, if_pos (by omega)]⟩

theorem c7_witness :
    RangesInv [(5, 9), (15, 19)] ∧
      (iterDirtyRanges [(5, 9), (15, 19)] (MarkArg.closed 8 16)
          = List.filterMap
              (clipTo (MarkArg.toRange (.closed 8 16)).1
                (MarkArg.toRange (.closed 8 16)).2) [(5, 9), (15, 19)] ∧
        (iterDirtyRanges [(5, 9), (15, 19)]
            (MarkArg.closed 8 16)).Pairwise (fun p q => p.2 + 1 < q.1) ∧
        (∀ p ∈ iterDirtyRanges [(5, 9), (15, 19)] (MarkArg.closed 8 16),
          (MarkArg.toRange (.closed 8 16)).1 ≤ p.1 ∧ p.1 ≤ p.2 ∧
            p.2 ≤ (MarkArg.toRange (.closed 8 16)).2) ∧
        ∀ x, ((∃ p ∈ iterDirtyRanges [(5, 9), (15, 19)] (MarkArg.closed 8 16),
            p.1 ≤ x ∧ x ≤ p.2) ↔
          (isMarked [(5, 9), (15, 19)] x = true ∧
            (MarkArg.toRange (.closed 8 16)).1 ≤ x ∧
              x ≤ (MarkArg.toRange (.closed 8 16)).2))) :=
  ⟨by decide, c7_iter_dirty_ranges_correct [(5, 9), (15, 19)]
    (MarkArg.closed 8 16) (by decide)⟩

/-! ### Character and text model (`editor.rs`)

The buffer is a `ropey::Rope`; the model is the list of its characters.
A character is represented by exactly the data the editor reads off it
through external collaborators. -/

/-- One Unicode scalar value, seen through the editor's accessors:
`width` is `ch.width_cjk().unwrap_or(1)`; `alnum` is
`c.is_alphanumeric() || c == '_'`; `ws` is `c.is_whitespace()`;
`lf`/`cr` are `c == '\n'` / `c == '\r'`. -/
structure Ch where
  width : Nat
  alnum : Bool
  ws : Bool
  lf : Bool
  cr : Bool
deriving DecidableEq

instance : Inhabited Ch := ⟨⟨1, false, false, false, false⟩⟩

/-- `CharKind`. -/
inductive CharKind
  | word
  | symbol
  | whitespace
  | newline
deriving DecidableEq

/-- `classify_char`. -/
def classifyChar (c : Ch) : CharKind :=
  if c.alnum then .word
  else if c.ws then (if c.lf || c.cr then .newline else .whitespace)
  else .symbol

abbrev Text := List Ch

/-- Logical-line split of the buffer: each line keeps its terminating
`'\n'`.  As in `ropey`, an empty buffer has one (empty) line, and a
buffer ending in `'\n'` has a final empty line. -/
def textLines : Text → List Text
  | [] => [[]]
  | c :: rest =>
    if c.lf then [c] :: textLines rest
    else
      match textLines rest with
      | [] => [[c]]
      | l :: ls => (c :: l) :: ls

/-- `Rope::len_lines`. -/
def lenLines (t : Text) : Nat := (textLines t).length

/-- `Rope::char_to_line`: the index of the line containing char `i`, which
is the number of `'\n'` characters strictly before position `i` (for
`i = len_chars` this is the last line index). -/
def charToLine (t : Text) (i : Nat) : Nat :=
  ((t.take i).filter (fun c => c.lf)).length

/-- `Rope::line_to_char`. -/
def lineToChar (t : Text) (l : Nat) : Nat :=
  (((textLines t).take l).map List.length).sum

/-- `Rope::line`. -/
def lineAt (t : Text) (l : Nat) : Text := (textLines t).getD l []

/-- `Rope::insert` / `Rope::insert_char` at char index `i`. -/
def insertAt (t : Text) (i : Nat) (ins : Text) : Text :=
  t.take i ++ ins ++ t.drop i

/-- `Rope::remove(s..e)`. -/
def removeRange (t : Text) (s e : Nat) : Text := t.take s ++ t.drop e

/-- `RopeSliceExt::len_chars_without_ending`: the char length excluding a
trailing `'\n'` (and a `'\r'` immediately before it). -/
def lenCharsWithoutEnding (l : Text) : Nat :=
  if 0 < l.length ∧ (l.getD (l.length - 1) default).lf then
    if 1 < l.length ∧ (l.getD (l.length - 2) default).cr then l.length - 2
    else l.length - 1
  else l.length

/-! #### Wrapping (`chunk_by_width_cjk`) and the visual-height cache -/

/-- The inner greedy loop of a chunk: how many leading characters fit when
the occupied width is `acc` (`while current_width + w ≤ max_width`). -/
def takeWidthCount (cw : Nat) : Nat → List Ch → Nat
  | _, [] => 0
  | acc, c :: rest =>
    if acc + c.width > cw then 0 else 1 + takeWidthCount cw (acc + c.width) rest

/-- Character length of the first chunk of a non-empty remainder: the
greedy prefix, or a single character when even one character exceeds the
width (`start_idx == end_idx && chars.peek().is_some()`). -/
def chunkLen (cw : Nat) (l : List Ch) : Nat :=
  if takeWidthCount cw 0 l = 0 then 1 else takeWidthCount cw 0 l

/-- Number of chunks the `from_fn` iterator yields, with the list length as
(always sufficient) structural fuel: each chunk consumes at least one
character. -/
def chunkChunks (cw : Nat) : Nat → List Ch → Nat
  | 0, _ => 0
  | _ + 1, [] => 0
  | fuel + 1, c :: rest =>
    1 + chunkChunks cw fuel ((c :: rest).drop (chunkLen cw (c :: rest)))

/-- `line.chunk_by_width_cjk(cw).count()`: an empty slice or a zero width
short-circuits to the one-element iterator `once(self)`. -/
def chunkCount (cw : Nat) (l : List Ch) : Nat :=
  if l.length = 0 ∨ cw = 0 then 1 else chunkChunks cw l.length l

/-- A line's visual height:
`max(1, line.chunk_by_width_cjk(content_width).count())`. -/
def lineHeight (cw : Nat) (line : Text) : Nat := max 1 (chunkCount cw line)

/-- Partial sums from a starting value — the
`current_cumulative += h; push(current_cumulative)` loops of both cache
routines. -/
def cumFrom (a : Nat) : List Nat → List Nat
  | [] => []
  | h :: t => (a + h) :: cumFrom (a + h) t

/-- `Editor::rebuild_height_cache`, as a function of the content width and
the logical lines: `H[0] = 0`, `H[i] = H[i-1] + height(line i-1)`.  (For
zero lines the loop body never runs and the result is `[0]`, which this
expression also gives.) -/
def rebuildHeightCache (cw : Nat) (lines : List Text) : List Nat :=
  0 :: cumFrom 0 (lines.map (lineHeight cw))

/-- `Editor::update_height_cache`, as a function of the content width, the
(post-edit) logical lines, and the previous cumulative cache; returns the
new cache and the returned `delta`.  Vector indexing is modelled with
`getD` (the theorems' hypotheses keep all accesses in bounds, where the
Rust cannot panic); `splice(start+1..start+1+old, new_cum)` is
`take (start+1) ++ new_cum ++ drop (start+1+old)`; the delta-propagation
loop runs from index `start+1+new` — exactly the length of
`take (start+1) ++ new_cum` when `start+1` is in bounds — to the end, so
it is the `map` over the kept suffix (and is skipped when `delta == 0`);
`u32`/`i64` casts are `Nat`/`Int` coercions, with `as u32` on the
propagated entries as `Int.toNat`. -/
def updateHeightCache (cw : Nat) (lines : List Text) (cache : List Nat)
    (startLine oldCount newCount : Nat) : List Nat × Int :=
  if lines.length = 0 then ([0], 0)
  else
    let oldSpan := cache.getD (startLine + oldCount) 0 - cache.getD startLine 0
    let newHeights := (List.range newCount).map
      (fun i => lineHeight cw (lines.getD (startLine + i) []))
    let newSpan := newHeights.sum
    let delta : Int := (newSpan : Int) - (oldSpan : Int)
    let newCum := cumFrom (cache.getD startLine 0) newHeights
    let sfx := cache.drop (startLine + 1 + oldCount)
    let cache' := cache.take (startLine + 1) ++ newCum ++
      (if delta = 0 then sfx
       else sfx.map (fun (h : Nat) => ((h : Int) + delta).toNat))
    (cache', delta)

example : textLines [⟨1, true, false, false, false⟩, ⟨1, false, true, true, false⟩]
    = [[⟨1, true, false, false, false⟩, ⟨1, false, true, true, false⟩], []] := by decide
example : chunkCount 1 [⟨2, true, false, false, false⟩] = 1 := by decide
example : chunkCount 1 [⟨1, true, false, false, false⟩, ⟨1, false, true, true, false⟩] = 2 := by
  decide
example : rebuildHeightCache 1 (textLines [⟨1, true, false, false, false⟩,
    ⟨1, false, true, true, false⟩, ⟨2, true, false, false, false⟩]) = [0, 2, 3] := by decide

/-! #### C3: `update_height_cache` agrees with `rebuild_height_cache` -/

lemma cumFrom_append (a : Nat) (xs ys : List Nat) :
    cumFrom a (xs ++ ys) = cumFrom a xs ++ cumFrom (a + xs.sum) ys := by
  induction xs generalizing a with
  | nil => simp [cumFrom]
  | cons h t ih =>
    simp only [List.cons_append, cumFrom, List.sum_cons, List.append_eq]
    rw [ih (a + h), Nat.add_assoc]

lemma length_cumFrom (a : Nat) (l : List Nat) : (cumFrom a l).length = l.length := by
  induction l generalizing a with
  | nil => rfl
  | cons h t ih => simp [cumFrom, ih]

lemma getD_cons_cumFrom (hs : List Nat) (a i : Nat) (h : i ≤ hs.length) :
    (a :: cumFrom a hs).getD i 0 = a + (hs.take i).sum := by
  induction hs generalizing a i with
  | nil =>
    have hi : i = 0 := by simpa using h
    subst hi; simp
  | cons hh t ih =>
    cases i with
    | zero => simp
    | succ j =>
      simp only [cumFrom, List.getD_cons_succ, List.take_succ_cons, List.sum_cons]
      rw [ih (a + hh) j (by simpa using h)]
      omega

lemma cumFrom_shift (hs : List Nat) (a b b' : Nat) :
    (cumFrom (a + b) hs).map
        (fun (h : Nat) => ((h : Int) + ((b' : Int) - (b : Int))).toNat)
      = cumFrom (a + b') hs := by
  induction hs generalizing a with
  | nil => rfl
  | cons hh t ih =>
    simp only [cumFrom, List.map_cons]
    have h1 : ((((a + b + hh : Nat)) : Int) + ((b' : Int) - (b : Int))).toNat
        = a + b' + hh := by omega
    rw [h1]
    have h2 : a + b + hh = (a + hh) + b := by omega
    have h3 : a + b' + hh = (a + hh) + b' := by omega
    rw [h2, h3, ih (a + hh)]

lemma getD_append_add {α : Type} (l1 l2 : List α) (i : Nat) (d : α) :
    (l1 ++ l2).getD (l1.length + i) d = l2.getD i d := by
  induction l1 with
  | nil => simp
  | cons x xs ih =>
    have hlen : (x :: xs).length + i = (xs.length + i) + 1 := by
      simp [List.length_cons]; omega
    rw [hlen, List.cons_append, List.getD_cons_succ]
    exact ih

lemma getD_append_lt {α : Type} (l1 l2 : List α) (i : Nat) (d : α)
    (h : i < l1.length) :
    (l1 ++ l2).getD i d = l1.getD i d := by
  induction l1 generalizing i with
  | nil => simp at h
  | cons x xs ih =>
    cases i with
    | zero => simp
    | succ j =>
      rw [List.cons_append, List.getD_cons_succ, List.getD_cons_succ]
      exact ih j (by simpa using h)

lemma rebuild_getD (cw : Nat) (X : List Text) (i : Nat) (h : i ≤ X.length) :
    (rebuildHeightCache cw X).getD i 0 = ((X.take i).map (lineHeight cw)).sum := by
  rw [rebuildHeightCache, getD_cons_cumFrom _ _ _ (by simpa using h)]
  rw [← List.map_take]
  omega

lemma rebuild_take (cw : Nat) (X Y : List Text) :
    (rebuildHeightCache cw (X ++ Y)).take (X.length + 1) = rebuildHeightCache cw X := by
  rw [rebuildHeightCache, rebuildHeightCache, List.map_append, cumFrom_append,
    ← List.cons_append]
  rw [show X.length + 1 = (0 :: cumFrom 0 (X.map (lineHeight cw))).length from by
    simp [length_cumFrom]]
  exact List.take_left _ _

lemma rebuild_drop (cw : Nat) (X Y : List Text) :
    (rebuildHeightCache cw (X ++ Y)).drop (X.length + 1)
      = cumFrom ((X.map (lineHeight cw)).sum) (Y.map (lineHeight cw)) := by
  rw [rebuildHeightCache, List.map_append, cumFrom_append, ← List.cons_append]
  rw [show X.length + 1 = (0 :: cumFrom 0 (X.map (lineHeight cw))).length from by
    simp [length_cumFrom]]
  rw [List.drop_left, Nat.zero_add]

/-- C3: for every edit that replaced the `old_line_count` logical lines
`B` starting at `start_line = |A|` with the `new_line_count` lines `B'`
(text `A ++ B ++ C` before, `A ++ B' ++ C` after, same content width),
running `update_height_cache(start_line, old_line_count, new_line_count)`
on the pre-edit cumulative-heights array produces exactly the array that
`rebuild_height_cache` computes from scratch on the post-edit text, and
the returned delta is the new span's total height minus the old span's
total height. -/
theorem c3_update_height_cache_eq_rebuild (cw : Nat) (A B B' C : List Text)
    (hpost : A ++ B' ++ C ≠ []) :
    updateHeightCache cw (A ++ B' ++ C) (rebuildHeightCache cw (A ++ B ++ C))
        A.length B.length B'.length
      = (rebuildHeightCache cw (A ++ B' ++ C),
        ((B'.map (lineHeight cw)).sum : Int) - ((B.map (lineHeight cw)).sum : Int)) := by
  simp only [updateHeightCache]
  rw [if_neg (by simpa using hpost)]
  have h7 : (List.range B'.length).map
      (fun i => lineHeight cw ((A ++ B' ++ C).getD (A.length + i) []))
        = B'.map (lineHeight cw) := by
    apply List.ext_getElem
    · simp
    · intro n h1 h2
      simp only [List.getElem_map, List.getElem_range]
      congr 1
      rw [List.append_assoc, getD_append_add]
      rw [getD_append_lt _ _ _ _ (by simpa using h2)]
      exact List.getD_eq_getElem B' [] (by simpa using h2)
  have hgA : (rebuildHeightCache cw (A ++ B ++ C)).getD A.length 0
      = (A.map (lineHeight cw)).sum := by
    rw [rebuild_getD cw _ _ (by simp)]
    congr 2
    rw [List.append_assoc]
    exact List.take_left _ _
  have hgAB : (rebuildHeightCache cw (A ++ B ++ C)).getD (A.length + B.length) 0
      = (A.map (lineHeight cw)).sum + (B.map (lineHeight cw)).sum := by
    rw [rebuild_getD cw _ _ (by simp)]
    rw [show A.length + B.length = (A ++ B).length from by simp]
    rw [List.take_left, List.map_append, List.sum_append]
  have htake : (rebuildHeightCache cw (A ++ B ++ C)).take (A.length + 1)
      = 0 :: cumFrom 0 (A.map (lineHeight cw)) := by
    rw [List.append_assoc, rebuild_take, rebuildHeightCache]
  have hdrop : (rebuildHeightCache cw (A ++ B ++ C)).drop (A.length + 1 + B.length)
      = cumFrom ((A.map (lineHeight cw)).sum + (B.map (lineHeight cw)).sum)
          (C.map (lineHeight cw)) := by
    rw [show A.length + 1 + B.length = (A ++ B).length + 1 from by simp; omega]
    rw [rebuild_drop, List.map_append, List.sum_append]
  have hpostdec : rebuildHeightCache cw (A ++ B' ++ C)
      = (0 :: cumFrom 0 (A.map (lineHeight cw))) ++
          (cumFrom ((A.map (lineHeight cw)).sum) (B'.map (lineHeight cw)) ++
            cumFrom ((A.map (lineHeight cw)).sum + (B'.map (lineHeight cw)).sum)
              (C.map (lineHeight cw))) := by
    rw [rebuildHeightCache, List.append_assoc, List.map_append, List.map_append,
      cumFrom_append, cumFrom_append, ← List.cons_append, Nat.zero_add]
  rw [h7, hgA, hgAB, htake, hdrop]
  have hsub : (A.map (lineHeight cw)).sum + (B.map (lineHeight cw)).sum
      - (A.map (lineHeight cw)).sum = (B.map (lineHeight cw)).sum := by omega
  rw [hsub, hpostdec]
  by_cases hd : ((B'.map (lineHeight cw)).sum : Int)
      - ((B.map (lineHeight cw)).sum : Int) = 0
  · rw [if_pos hd]
    have hbb : (B.map (lineHeight cw)).sum = (B'.map (lineHeight cw)).sum := by omega
    rw [hbb, List.append_assoc]
  · rw [if_neg hd]
    rw [cumFrom_shift (C.map (lineHeight cw)) ((A.map (lineHeight cw)).sum)
      ((B.map (lineHeight cw)).sum) ((B'.map (lineHeight cw)).sum)]
    rw [List.append_assoc]

theorem c3_witness :
    ([[(⟨1, true, false, false, false⟩ : Ch)]] ++
        [[(⟨1, true, false, false, false⟩ : Ch), ⟨1, false, true, true, false⟩],
          []] ++ [] : List Text) ≠ [] ∧
      updateHeightCache 5
          ([[(⟨1, true, false, false, false⟩ : Ch)]] ++
            [[(⟨1, true, false, false, false⟩ : Ch), ⟨1, false, true, true, false⟩],
              []] ++ [])
          (rebuildHeightCache 5
            ([[(⟨1, true, false, false, false⟩ : Ch)]] ++
              [[(⟨1, true, false, false, false⟩ : Ch)]] ++ []))
          1 1 2
        = (rebuildHeightCache 5
            ([[(⟨1, true, false, false, false⟩ : Ch)]] ++
              [[(⟨1, true, false, false, false⟩ : Ch), ⟨1, false, true, true, false⟩],
                []] ++ []),
          (([[(⟨1, true, false, false, false⟩ : Ch), ⟨1, false, true, true, false⟩],
              []].map (lineHeight 5)).sum : Int)
            - (([[(⟨1, true, false, false, false⟩ : Ch)]].map (lineHeight 5)).sum : Int)) :=
  ⟨by decide, c3_update_height_cache_eq_rebuild 5
    [[⟨1, true, false, false, false⟩]]
    [[⟨1, true, false, false, false⟩]]
    [[⟨1, true, false, false, false⟩, ⟨1, false, true, true, false⟩], []]
    [] (by decide)⟩

/-! ### Editor state (`editor.rs`) -/

/-- `ScrollOffset` (`#[derive(Default)]` gives `(0, 0)`). -/
structure ScrollOffset where
  logicalLine : Nat
  visualOffsetInLine : Nat
deriving DecidableEq

instance : Inhabited ScrollOffset := ⟨⟨0, 0⟩⟩

/-- `CommandEffect`. -/
inductive CommandEffect
  | textChanged (start oldCount newCount : Nat)
  | cursorDirty
  | selectionFixed
  | none
deriving DecidableEq

/-- `Command` (`command.rs`). -/
inductive Command
  | inputChar (c : Ch)
  | inputEnter
  | deleteLeft
  | deleteRight
  | deleteWordLeft
  | deleteWordRight
  | cursorUp
  | cursorDown
  | cursorLeft
  | cursorRight
  | cursorWordLeft
  | cursorWordRight
  | cursorHome
  | cursorEnd
  | cursorPageUp
  | cursorPageDown
  | selectAll
  | selectLine
  | textCopy
  | textCut
  | textPaste
  | textCopyAndClearSelection
  | exit
deriving DecidableEq

/-- Clipboard access (`arboard`), an external collaborator: the outcomes
of `Clipboard::new()?.get_text()?` and `Clipboard::new()?.set_text(..)?`. -/
inductive ClipErr
  | unavailable
deriving DecidableEq

structure Clip where
  getText : Except ClipErr Text
  setText : Except ClipErr Unit

/-- The `Editor` struct (`stdout` and `keymap` are I/O collaborators and
are not part of the state the claims speak about; `dirty_lines` is a
`HashSet<usize>`, modelled as a `Finset`). -/
structure Editor where
  text : Text
  cursor : Nat
  selectionAnchor : Option Nat
  tmpX : Option Nat
  terminalWidth : Nat
  terminalHeight : Nat
  scrollOffset : ScrollOffset
  cumulativeVisualHeights : List Nat
  isDirty : Bool
  fullRedrawRequest : Bool
  dirtyLines : Finset Nat
  shouldQuit : Bool
deriving DecidableEq

def lineNumberWidth : Nat := 7

def statusBarHeight : Nat := 1

/-- `Editor::content_width`: two saturating subtractions, with a zero
result replaced by the huge sentinel `1_000_000_000`. -/
def Editor.contentWidth (ed : Editor) : Nat :=
  if ed.terminalWidth - lineNumberWidth - 1 = 0 then 1000000000
  else ed.terminalWidth - lineNumberWidth - 1

/-- `Editor::content_height` (`u16` as `Nat`, saturating subtraction). -/
def Editor.contentHeight (ed : Editor) : Nat :=
  ed.terminalHeight - statusBarHeight

/-- `Editor::get_total_visual_height_between`. -/
def Editor.getTotalVisualHeightBetween (ed : Editor) (s e : Nat) : Nat :=
  if e ≥ ed.cumulativeVisualHeights.length ∨ s > e then 0
  else ed.cumulativeVisualHeights.getD e 0 - ed.cumulativeVisualHeights.getD s 0

/-- `Editor::get_visual_height_for_line`. -/
def Editor.getVisualHeightForLine (ed : Editor) (lineIdx : Nat) : Nat :=
  if lineIdx + 1 ≥ ed.cumulativeVisualHeights.length then 1
  else ed.cumulativeVisualHeights.getD (lineIdx + 1) 0
    - ed.cumulativeVisualHeights.getD lineIdx 0

/-- `Editor::logical_to_absolute_visual`. -/
def Editor.logicalToAbsoluteVisual (ed : Editor) (o : ScrollOffset) : Nat :=
  ed.getTotalVisualHeightBetween 0 o.logicalLine + o.visualOffsetInLine

/-- `Editor::absolute_visual_to_logical`.  `partition_point(|&h| h <= y)`
is modelled as the length of the matching `takeWhile` run, which is what
it returns on the non-decreasing cache; the two `saturating_sub`s are
`Nat` subtraction. -/
def Editor.absoluteVisualToLogical (ed : Editor) (absY : Nat) : ScrollOffset :=
  if lenLines ed.text = 0 ∨ absY = 0 then ⟨0, 0⟩
  else
    let pp := (ed.cumulativeVisualHeights.takeWhile
      (fun h => decide (h ≤ absY))).length
    let ll := min (pp - 1) (lenLines ed.text - 1)
    ⟨ll, absY - ed.getTotalVisualHeightBetween 0 ll⟩

/-- Loop of `char_idx_to_visual_pos_in_line`, running over the first
`char_offset` characters of the line. -/
def visualPosAux (cw : Nat) : List Ch → Nat × Nat → Nat × Nat
  | [], p => p
  | c :: rest, (vx, vy) =>
    if vx + c.width > cw then visualPosAux cw rest (c.width, vy + 1)
    else visualPosAux cw rest (vx + c.width, vy)

/-- `Editor::char_idx_to_visual_pos_in_line`, as a function of the content
width and the line (the source reads both off `self`). -/
def charIdxToVisualPosInLine (cw : Nat) (line : Text) (charOffset : Nat) :
    Nat × Nat :=
  visualPosAux cw (line.take charOffset) (0, 0)

/-- Loop of `visual_pos_to_char_idx_in_line` over the enumerated line:
`some i` models the early returns, `none` the loop running off the end.
The source updates `last_char_idx = i` between the two return checks; the
recursion passes `i` as the next `lastIdx`, which is the same thing. -/
def vp2ciAux (cw tvx tvy : Nat) :
    List (Nat × Ch) → Nat → Nat → Nat → Option Nat
  | [], _, _, _ => none
  | (i, c) :: rest, vx, vy, lastIdx =>
    if tvy < vy then some lastIdx
    else if vy = tvy ∧ vx ≥ tvx then some i
    else if vx + c.width > cw then vp2ciAux cw tvx tvy rest c.width (vy + 1) i
    else vp2ciAux cw tvx tvy rest (vx + c.width) vy i

/-- `Editor::visual_pos_to_char_idx_in_line`. -/
def visualPosToCharIdxInLine (cw : Nat) (line : Text) (tvx tvy : Nat) : Nat :=
  match vp2ciAux cw tvx tvy line.enum 0 0 0 with
  | some i => i
  | Option.none => lenCharsWithoutEnding line

/-- `get_total_visual_height_between(0, len_lines)`: the total visual
height of the document as `scroll_to_cursor` computes it. -/
def Editor.totalVisualHeight (ed : Editor) : Nat :=
  ed.getTotalVisualHeightBetween 0 (lenLines ed.text)

/-- The cursor's absolute visual row, exactly as step 1 of
`scroll_to_cursor` computes it. -/
def Editor.cursorAbsRow (ed : Editor) : Nat :=
  ed.logicalToAbsoluteVisual
    ⟨charToLine ed.text ed.cursor,
      (charIdxToVisualPosInLine ed.contentWidth
        (lineAt ed.text (charToLine ed.text ed.cursor))
        (ed.cursor - lineToChar ed.text (charToLine ed.text ed.cursor))).2⟩

/-- `Editor::scroll_to_cursor`.  In the hard-scroll-down branch the `u32`
expression `cursor_abs_y - content_height + 1` cannot underflow (there
`cursor_abs_y > screen_top + content_height - 1 ≥ content_height - 1`), so
`Nat` subtraction is faithful; the other subtractions are `saturating_sub`
in the source. -/
def Editor.scrollToCursor (ed : Editor) : Editor :=
  if ed.contentHeight = 0 then ed
  else
    let cursorAbsY := ed.cursorAbsRow
    let screenTop := ed.logicalToAbsoluteVisual ed.scrollOffset
    let newTop :=
      if cursorAbsY < screenTop then cursorAbsY
      else if cursorAbsY > screenTop + ed.contentHeight - 1 then
        cursorAbsY - ed.contentHeight + 1
      else
        let ideal := cursorAbsY - ed.contentHeight / 2
        if ed.totalVisualHeight - ideal < ed.contentHeight then
          ed.totalVisualHeight - ed.contentHeight
        else ideal
    let fo := ed.absoluteVisualToLogical newTop
    { ed with
      scrollOffset := fo,
      fullRedrawRequest :=
        if fo ≠ ed.scrollOffset then true else ed.fullRedrawRequest }

/-! #### Cache facts for the coordinate maps (C8, C10) -/

lemma textLines_ne_nil (t : Text) : textLines t ≠ [] := by
  induction t with
  | nil => simp [textLines]
  | cons c rest ih =>
    by_cases h : c.lf
    · simp [textLines, h]
    · simp only [textLines, if_neg h]
      cases htl : textLines rest with
      | nil => simp
      | cons l ls => simp

lemma lenLines_pos (t : Text) : 1 ≤ lenLines t := by
  unfold lenLines
  cases htl : textLines t with
  | nil => exact absurd htl (textLines_ne_nil t)
  | cons l ls => simp

lemma rebuild_length (cw : Nat) (lines : List Text) :
    (rebuildHeightCache cw lines).length = lines.length + 1 := by
  simp [rebuildHeightCache, length_cumFrom]

lemma one_le_lineHeight (cw : Nat) (line : Text) : 1 ≤ lineHeight cw line := by
  simp [lineHeight]

lemma sum_map_take_succ (f : Text → Nat) (lines : List Text) (i : Nat)
    (h : i < lines.length) :
    ((lines.take (i + 1)).map f).sum
      = ((lines.take i).map f).sum + f (lines.getD i []) := by
  rw [List.take_succ, List.map_append, List.sum_append]
  congr 1
  rw [List.getElem?_eq_getElem h, List.getD_eq_getElem lines [] h]
  simp

lemma sum_map_take_mono (f : Text → Nat) (lines : List Text) (i j : Nat)
    (h : i ≤ j) :
    ((lines.take i).map f).sum ≤ ((lines.take j).map f).sum := by
  conv_rhs => rw [← List.take_append_drop i (lines.take j)]
  rw [List.take_take, Nat.min_eq_left h, List.map_append, List.sum_append]
  omega

lemma takeWhile_le_length_eq (H : List Nat) (a : Nat) :
    ∀ (k : Nat), k ≤ H.length →
      (∀ i, i < k → H.getD i 0 ≤ a) →
      (k < H.length → ¬ (H.getD k 0 ≤ a)) →
      (H.takeWhile (fun h => decide (h ≤ a))).length = k := by
  induction H with
  | nil =>
    intro k hk _ _
    simp at hk
    simp [hk]
  | cons x xs ih =>
    intro k hk hlo hhi
    cases k with
    | zero =>
      have hx := hhi (by simp)
      rw [List.takeWhile_cons, if_neg (by simpa using hx)]
      rfl
    | succ j =>
      have hx : x ≤ a := by simpa using hlo 0 (by omega)
      rw [List.takeWhile_cons, if_pos (by simpa using hx)]
      have hrec := ih j (by simpa using hk)
        (fun i hi => by simpa using hlo (i + 1) (by omega))
        (fun hj => by simpa using hhi (by simpa using Nat.succ_lt_succ hj))
      simp [hrec]

lemma takeWhile_length_lo (H : List Nat) (a : Nat) :
    ∀ i, i < (H.takeWhile (fun h => decide (h ≤ a))).length → H.getD i 0 ≤ a := by
  induction H with
  | nil => intro i hi; simp at hi
  | cons x xs ih =>
    intro i hi
    rw [List.takeWhile_cons] at hi
    by_cases hx : x ≤ a
    · rw [if_pos (by simpa using hx)] at hi
      cases i with
      | zero => simpa using hx
      | succ j =>
        rw [List.getD_cons_succ]
        exact ih j (by simpa using hi)
    · rw [if_neg (by simpa using hx)] at hi
      simp at hi

/-- C10: when the cumulative-heights cache equals the array that
`rebuild_height_cache` produces for the current text and width, and the
scroll offset addresses an existing logical line with an in-range visual
offset, `absolute_visual_to_logical` inverts
`logical_to_absolute_visual`. -/
theorem c10_coordinate_roundtrip (ed : Editor) (s : ScrollOffset)
    (hcache : ed.cumulativeVisualHeights
      = rebuildHeightCache ed.contentWidth (textLines ed.text))
    (hline : s.logicalLine < lenLines ed.text)
    (hoff : s.visualOffsetInLine
      < lineHeight ed.contentWidth (lineAt ed.text s.logicalLine)) :
    ed.absoluteVisualToLogical (ed.logicalToAbsoluteVisual s) = s := by
  obtain ⟨L, off⟩ := s
  simp only at hline hoff
  have hlen_eq : lenLines ed.text = (textLines ed.text).length := rfl
  have hlenH : ed.cumulativeVisualHeights.length
      = (textLines ed.text).length + 1 := by
    rw [hcache, rebuild_length]
  have hgetD : ∀ i, i ≤ (textLines ed.text).length →
      ed.cumulativeVisualHeights.getD i 0
        = (((textLines ed.text).take i).map (lineHeight ed.contentWidth)).sum := by
    intro i hi
    rw [hcache]
    exact rebuild_getD _ _ i hi
  have hLlen : L < (textLines ed.text).length := by omega
  have habs : ed.logicalToAbsoluteVisual ⟨L, off⟩
      = (((textLines ed.text).take L).map (lineHeight ed.contentWidth)).sum
        + off := by
    simp only [Editor.logicalToAbsoluteVisual, Editor.getTotalVisualHeightBetween]
    rw [if_neg (by omega)]
    rw [hgetD L (by omega), hgetD 0 (by omega)]
    simp
  have hfL : off < lineHeight ed.contentWidth (lineAt ed.text L) := hoff
  have hSL1 : (((textLines ed.text).take (L + 1)).map
        (lineHeight ed.contentWidth)).sum
      = (((textLines ed.text).take L).map (lineHeight ed.contentWidth)).sum
        + lineHeight ed.contentWidth (lineAt ed.text L) :=
    sum_map_take_succ (lineHeight ed.contentWidth) (textLines ed.text) L hLlen
  rw [habs]
  by_cases ha0 : (((textLines ed.text).take L).map
      (lineHeight ed.contentWidth)).sum + off = 0
  · have hoff0 : off = 0 := by omega
    have hL0 : L = 0 := by
      by_contra hL
      have h1 : (((textLines ed.text).take 1).map
          (lineHeight ed.contentWidth)).sum
          ≤ (((textLines ed.text).take L).map (lineHeight ed.contentWidth)).sum :=
        sum_map_take_mono _ _ 1 L (by omega)
      have h2 : (((textLines ed.text).take 1).map
            (lineHeight ed.contentWidth)).sum
          = (((textLines ed.text).take 0).map (lineHeight ed.contentWidth)).sum
            + lineHeight ed.contentWidth (lineAt ed.text 0) :=
        sum_map_take_succ (lineHeight ed.contentWidth) (textLines ed.text) 0
          (by omega)
      have h3 := one_le_lineHeight ed.contentWidth (lineAt ed.text 0)
      simp only [List.take_zero, List.map_nil, List.sum_nil] at h2
      omega
    rw [Editor.absoluteVisualToLogical, if_pos (Or.inr ha0)]
    rw [hL0, hoff0]
  · simp only [Editor.absoluteVisualToLogical]
    rw [if_neg (by
      rintro (h | h)
      · omega
      · exact ha0 h)]
    have hpp : (ed.cumulativeVisualHeights.takeWhile
        (fun h => decide (h ≤ (((textLines ed.text).take L).map
          (lineHeight ed.contentWidth)).sum + off))).length = L + 1 := by
      apply takeWhile_le_length_eq
      · omega
      · intro i hi
        rw [hgetD i (by omega)]
        have := sum_map_take_mono (lineHeight ed.contentWidth)
          (textLines ed.text) i L (by omega)
        omega
      · intro hlt
        rw [hgetD (L + 1) (by omega)]
        omega
    rw [hpp]
    have hmin : min (L + 1 - 1) (lenLines ed.text - 1) = L := by
      rw [Nat.add_sub_cancel]
      exact Nat.min_eq_left (by omega)
    rw [hmin]
    simp only [Editor.getTotalVisualHeightBetween]
    rw [if_neg (by omega)]
    rw [hgetD L (by omega), hgetD 0 (by omega)]
    simp only [List.take_zero, List.map_nil, List.sum_nil, Nat.sub_zero]
    congr 1
    omega

theorem c10_witness :
    ((Editor.mk [⟨1, true, false, false, false⟩] 0 none none 9 5 ⟨0, 0⟩
        [0, 1] true false ∅ false).cumulativeVisualHeights
      = rebuildHeightCache
          (Editor.mk [⟨1, true, false, false, false⟩] 0 none none 9 5 ⟨0, 0⟩
            [0, 1] true false ∅ false).contentWidth
          (textLines (Editor.mk [⟨1, true, false, false, false⟩] 0 none none 9 5
            ⟨0, 0⟩ [0, 1] true false ∅ false).text) ∧
      (0 : Nat) < lenLines [⟨1, true, false, false, false⟩] ∧
      (0 : Nat) < lineHeight 1 (lineAt [⟨1, true, false, false, false⟩] 0)) ∧
    (Editor.mk [⟨1, true, false, false, false⟩] 0 none none 9 5 ⟨0, 0⟩
        [0, 1] true false ∅ false).absoluteVisualToLogical
      ((Editor.mk [⟨1, true, false, false, false⟩] 0 none none 9 5 ⟨0, 0⟩
        [0, 1] true false ∅ false).logicalToAbsoluteVisual ⟨0, 0⟩) = ⟨0, 0⟩ :=
  ⟨⟨by decide, by decide, by decide⟩,
    c10_coordinate_roundtrip _ ⟨0, 0⟩ (by decide) (by decide) (by decide)⟩

/-! #### `scroll_to_cursor` (C8) -/

lemma logicalToAbs_congr (ed' ed : Editor)
    (h : ed'.cumulativeVisualHeights = ed.cumulativeVisualHeights)
    (o : ScrollOffset) :
    ed'.logicalToAbsoluteVisual o = ed.logicalToAbsoluteVisual o := by
  simp [Editor.logicalToAbsoluteVisual, Editor.getTotalVisualHeightBetween, h]

/-- With a rebuilt cache, converting an absolute row to a `ScrollOffset`
and back is the identity (for rows past the end the clamped line still
reproduces the row, because the stored intra-line offset absorbs the
difference). -/
lemma absToLogical_roundtrip (ed : Editor)
    (hcache : ed.cumulativeVisualHeights
      = rebuildHeightCache ed.contentWidth (textLines ed.text)) (a : Nat) :
    ed.logicalToAbsoluteVisual (ed.absoluteVisualToLogical a) = a := by
  have hpos : 1 ≤ lenLines ed.text := lenLines_pos _
  have hlenH : ed.cumulativeVisualHeights.length
      = (textLines ed.text).length + 1 := by
    rw [hcache, rebuild_length]
  have hlen_eq : lenLines ed.text = (textLines ed.text).length := rfl
  by_cases ha : a = 0
  · subst ha
    rw [Editor.absoluteVisualToLogical, if_pos (Or.inr rfl)]
    simp only [Editor.logicalToAbsoluteVisual, Editor.getTotalVisualHeightBetween]
    rw [if_neg (by omega)]
    omega
  · simp only [Editor.absoluteVisualToLogical]
    rw [if_neg (by
      rintro (h | h)
      · omega
      · exact ha h)]
    have hpp1 : 1 ≤ (ed.cumulativeVisualHeights.takeWhile
        (fun h => decide (h ≤ a))).length := by
      rw [hcache, rebuildHeightCache, List.takeWhile_cons,
        if_pos (by simp)]
      simp
    set pp := (ed.cumulativeVisualHeights.takeWhile
      (fun h => decide (h ≤ a))).length with hppdef
    set ll := min (pp - 1) (lenLines ed.text - 1) with hlldef
    have hllpp : ll < pp := by omega
    have hlllen : ll ≤ (textLines ed.text).length := by omega
    have hgetll : ed.cumulativeVisualHeights.getD ll 0 ≤ a :=
      takeWhile_length_lo ed.cumulativeVisualHeights a ll hllpp
    simp only [Editor.logicalToAbsoluteVisual, Editor.getTotalVisualHeightBetween]
    rw [if_neg (by omega)]
    have hget0 : ed.cumulativeVisualHeights.getD 0 0 = 0 := by
      rw [hcache, rebuildHeightCache]
      rfl
    rw [hget0]
    omega

/-- C8 amended: assume a positive content height, a cache equal to
`rebuild_height_cache` for the current text and width, and — this is the
amendment — that the cursor's computed absolute visual row lies below the
cached total document height (which can fail only when a character wider
than the content width makes `char_idx_to_visual_pos_in_line` wrap one row
past its line's cached height; see the counterexample).  Then after
`scroll_to_cursor` the cursor row is always inside
`[top, top + content_height)`, and when additionally the total height is
smaller than the content height *and* the cursor was not above the
previous viewport top (second amendment, forced by the hard-scroll-up
branch, which sets `top` to the cursor row instead), the new top is 0. -/
theorem c8_amended_viewport_containment (ed : Editor)
    (hch : 1 ≤ ed.contentHeight)
    (hcache : ed.cumulativeVisualHeights
      = rebuildHeightCache ed.contentWidth (textLines ed.text))
    (hr : ed.cursorAbsRow < ed.totalVisualHeight) :
    ((ed.scrollToCursor).logicalToAbsoluteVisual (ed.scrollToCursor).scrollOffset
        ≤ ed.cursorAbsRow ∧
      ed.cursorAbsRow
        < (ed.scrollToCursor).logicalToAbsoluteVisual
            (ed.scrollToCursor).scrollOffset + ed.contentHeight) ∧
    (ed.totalVisualHeight < ed.contentHeight →
      ed.logicalToAbsoluteVisual ed.scrollOffset ≤ ed.cursorAbsRow →
      (ed.scrollToCursor).logicalToAbsoluteVisual
        (ed.scrollToCursor).scrollOffset = 0) := by
  have hch0 : ¬ ed.contentHeight = 0 := by omega
  have hcac : (ed.scrollToCursor).cumulativeVisualHeights
      = ed.cumulativeVisualHeights := by
    simp only [Editor.scrollToCursor]
    split
    · rfl
    · rfl
  have hso : (ed.scrollToCursor).scrollOffset
      = ed.absoluteVisualToLogical
          (if ed.cursorAbsRow < ed.logicalToAbsoluteVisual ed.scrollOffset then
            ed.cursorAbsRow
          else if ed.cursorAbsRow >
              ed.logicalToAbsoluteVisual ed.scrollOffset + ed.contentHeight - 1 then
            ed.cursorAbsRow - ed.contentHeight + 1
          else if ed.totalVisualHeight
              - (ed.cursorAbsRow - ed.contentHeight / 2) < ed.contentHeight then
            ed.totalVisualHeight - ed.contentHeight
          else ed.cursorAbsRow - ed.contentHeight / 2) := by
    simp only [Editor.scrollToCursor]
    rw [if_neg hch0]
  have htop : (ed.scrollToCursor).logicalToAbsoluteVisual
      (ed.scrollToCursor).scrollOffset
      = (if ed.cursorAbsRow < ed.logicalToAbsoluteVisual ed.scrollOffset then
          ed.cursorAbsRow
        else if ed.cursorAbsRow >
            ed.logicalToAbsoluteVisual ed.scrollOffset + ed.contentHeight - 1 then
          ed.cursorAbsRow - ed.contentHeight + 1
        else if ed.totalVisualHeight
            - (ed.cursorAbsRow - ed.contentHeight / 2) < ed.contentHeight then
          ed.totalVisualHeight - ed.contentHeight
        else ed.cursorAbsRow - ed.contentHeight / 2) := by
    rw [logicalToAbs_congr _ ed hcac, hso, absToLogical_roundtrip ed hcache]
  rw [htop]
  split_ifs with h1 h2 h3 <;> omega

/-- The state of the C8 counterexample: text `"b\\nA"` where `A` is a
double-width character, terminal width 9 (content width 1) and height 4
(content height 3), cache `[0, 2, 3]` as rebuilt, cursor at the end of the
document, scroll offset one visual row into line 0. -/
def c8CounterEd : Editor :=
  { text := [⟨1, true, false, false, false⟩, ⟨1, false, true, true, false⟩,
      ⟨2, true, false, false, false⟩],
    cursor := 3, selectionAnchor := none, tmpX := none,
    terminalWidth := 9, terminalHeight := 4,
    scrollOffset := ⟨0, 1⟩, cumulativeVisualHeights := [0, 2, 3],
    isDirty := true, fullRedrawRequest := false, dirtyLines := ∅,
    shouldQuit := false }

/-- C8 counterexample: a state with positive content height and a cache
equal to `rebuild_height_cache` in which, although the total visual height
(3) is at least the content height (3), after `scroll_to_cursor` the
cursor's absolute visual row (3) does not lie below `top + content_height`
(0 + 3).  The double-width character at content width 1 makes
`char_idx_to_visual_pos_in_line` place the cursor one row below its line's
cached height, so the soft-scroll bottom-clamp lands the viewport above
the cursor. -/
theorem c8_counterexample_viewport :
    1 ≤ c8CounterEd.contentHeight ∧
    c8CounterEd.cumulativeVisualHeights
      = rebuildHeightCache c8CounterEd.contentWidth (textLines c8CounterEd.text) ∧
    c8CounterEd.contentHeight ≤ c8CounterEd.totalVisualHeight ∧
    ¬ (c8CounterEd.cursorAbsRow
        < (c8CounterEd.scrollToCursor).logicalToAbsoluteVisual
            (c8CounterEd.scrollToCursor).scrollOffset
          + c8CounterEd.contentHeight) := by
  refine ⟨by decide, by decide, by decide, by decide⟩

/-- The state of the C8 witness: a one-line document of height 1 in a tall
viewport. -/
def c8WitnessEd : Editor :=
  { text := [⟨1, true, false, false, false⟩],
    cursor := 0, selectionAnchor := none, tmpX := none,
    terminalWidth := 9, terminalHeight := 5,
    scrollOffset := ⟨0, 0⟩, cumulativeVisualHeights := [0, 1],
    isDirty := true, fullRedrawRequest := false, dirtyLines := ∅,
    shouldQuit := false }

theorem c8_amended_witness :
    (1 ≤ c8WitnessEd.contentHeight ∧
      c8WitnessEd.cumulativeVisualHeights
        = rebuildHeightCache c8WitnessEd.contentWidth
            (textLines c8WitnessEd.text) ∧
      c8WitnessEd.cursorAbsRow < c8WitnessEd.totalVisualHeight) ∧
    (((c8WitnessEd.scrollToCursor).logicalToAbsoluteVisual
          (c8WitnessEd.scrollToCursor).scrollOffset ≤ c8WitnessEd.cursorAbsRow ∧
        c8WitnessEd.cursorAbsRow
          < (c8WitnessEd.scrollToCursor).logicalToAbsoluteVisual
              (c8WitnessEd.scrollToCursor).scrollOffset
            + c8WitnessEd.contentHeight) ∧
      (c8WitnessEd.totalVisualHeight < c8WitnessEd.contentHeight →
        c8WitnessEd.logicalToAbsoluteVisual c8WitnessEd.scrollOffset
          ≤ c8WitnessEd.cursorAbsRow →
        (c8WitnessEd.scrollToCursor).logicalToAbsoluteVisual
          (c8WitnessEd.scrollToCursor).scrollOffset = 0)) :=
  ⟨⟨by decide, by decide, by decide⟩,
    c8_amended_viewport_containment c8WitnessEd (by decide) (by decide)
      (by decide)⟩

/-! ### Word navigation and the command engine (`editor.rs`) -/

/-- `consume_while_kind`: the number of characters consumed while they
match `kind`, and the class of the first non-matching character (`None`
when the iterator runs out).  The Rust `for` loop also removes that
boundary character from the iterator; the call sites that keep consuming
model this by dropping `offset + 1` characters. -/
def consumeWhileKind (k : CharKind) : List Ch → Nat × Option CharKind
  | [] => (0, none)
  | c :: rest =>
    if classifyChar c ≠ k then (0, some (classifyChar c))
    else
      let r := consumeWhileKind k rest
      (r.1 + 1, r.2)

/-- Shared body of the `CursorWordLeft`/`CursorWordRight` arms: given the
characters ahead of the cursor (already reversed for word-left), the total
offset the cursor moves.  `total` starts at 1 for the initial character;
a leading `Whitespace` run is consumed and, when a run of another class
follows, that run is consumed as well (the extra `+ 1` is the boundary
character the iterator already swallowed); a `Newline` class stops the
scan. -/
def wordNavTotal (chars : List Ch) : Nat :=
  match chars with
  | [] => 0
  | initial :: rest =>
    if classifyChar initial = CharKind.whitespace then
      match (consumeWhileKind CharKind.whitespace rest).2 with
      | Option.none => 1 + (consumeWhileKind CharKind.whitespace rest).1
      | some k2 =>
        if k2 ≠ CharKind.newline then
          1 + (consumeWhileKind CharKind.whitespace rest).1 + 1 +
            (consumeWhileKind k2
              (rest.drop ((consumeWhileKind CharKind.whitespace rest).1 + 1))).1
        else 1 + (consumeWhileKind CharKind.whitespace rest).1 + 1
    else if classifyChar initial ≠ CharKind.newline then
      1 + (consumeWhileKind (classifyChar initial) rest).1
    else 1

/-- Body of the `DeleteWordLeft`/`DeleteWordRight` arms (no whitespace
special case): the run of the initial character's class, or one character
if it is a line break. -/
def deleteWordTotal (chars : List Ch) : Nat :=
  match chars with
  | [] => 0
  | initial :: rest =>
    if classifyChar initial ≠ CharKind.newline then
      1 + (consumeWhileKind (classifyChar initial) rest).1
    else 1

/-- `Editor::get_selection_range`. -/
def Editor.getSelectionRange (ed : Editor) : Option (Nat × Nat) :=
  ed.selectionAnchor.map (fun anchor =>
    if ed.cursor < anchor then (ed.cursor, anchor) else (anchor, ed.cursor))

/-- `Editor::delete_selection`: the mutated editor plus the returned
`Option<(start_line, old_line_count)>`. -/
def Editor.deleteSelection (ed : Editor) : Editor × Option (Nat × Nat) :=
  match ed.getSelectionRange with
  | some (s, e) =>
    ({ ed with
        text := removeRange ed.text s e,
        cursor := s,
        selectionAnchor := none },
      some (charToLine ed.text s,
        charToLine ed.text e - charToLine ed.text s + 1))
  | Option.none => (ed, none)

/-- `Editor::handle_selection`. -/
def Editor.handleSelection (ed : Editor) (inSelection : Bool) : Editor :=
  if inSelection then
    if ed.selectionAnchor.isNone then
      { ed with selectionAnchor := some ed.cursor }
    else ed
  else
    match ed.getSelectionRange with
    | some (s, e) =>
      { ed with
          dirtyLines := ed.dirtyLines ∪
            Finset.Icc (charToLine ed.text s) (charToLine ed.text e),
          selectionAnchor := none }
    | Option.none => { ed with selectionAnchor := none }

/-- `Editor::copy_selection_to_clipboard`: touches the clipboard only when
a selection exists; the editor state itself is never mutated. -/
def Editor.copySelectionToClipboard (ed : Editor) (clip : Clip) :
    Except ClipErr Unit :=
  match ed.getSelectionRange with
  | some _ => clip.setText
  | Option.none => .ok ()

/-- `str::lines().count()` of the pasted text: 0 for empty text, otherwise
the number of `'\n'`s plus one unless the text ends with `'\n'`. -/
def rustLinesCount (t : Text) : Nat :=
  if t.length = 0 then 0
  else (t.filter (fun c => c.lf)).length +
    (if (t.getLast?.map (fun c => c.lf)).getD false then 0 else 1)

/-- `Editor::paste_from_clipboard`.  The selection is deleted FIRST, and
only then is the clipboard read; a clipboard failure therefore leaves the
selection-deleted state behind while the error propagates through `?`.
The `new_line_count` if/else chain returns `lines().count()` in both of
its non-zero branches, else 1. -/
def Editor.pasteFromClipboard (ed : Editor) (clip : Clip) :
    Editor × Except ClipErr (Option (Nat × Nat)) :=
  let ed1 := ed.deleteSelection.1
  match clip.getText with
  | .error e => (ed1, .error e)
  | .ok toPaste =>
    ({ ed1 with
        text := insertAt ed1.text ed1.cursor toPaste,
        cursor := ed1.cursor + toPaste.length },
      .ok (some (charToLine ed1.text ed1.cursor,
        if rustLinesCount toPaste > 0 then rustLinesCount toPaste else 1)))

/-- The `'\n'` character `insert_char(self.cursor, '\n')` inserts
(`width_cjk()` of a control character is `None`, so `unwrap_or(1)`). -/
def newlineCh : Ch := ⟨1, false, true, true, false⟩

/-- `Editor::curor_move_up` (spelling as in the source).
`tmp_x.get_or_insert(vx)` stores the target column and returns it. -/
def Editor.curorMoveUp (ed : Editor) : Editor :=
  let y := charToLine ed.text ed.cursor
  let startIdx := lineToChar ed.text y
  let vp := charIdxToVisualPosInLine ed.contentWidth (lineAt ed.text y)
    (ed.cursor - startIdx)
  let targetVx := ed.tmpX.getD vp.1
  let ed1 := { ed with tmpX := some targetVx }
  if vp.2 > 0 then
    { ed1 with
      cursor := startIdx + visualPosToCharIdxInLine ed.contentWidth
        (lineAt ed.text y) targetVx (vp.2 - 1) }
  else if y > 0 then
    { ed1 with
      cursor := lineToChar ed.text (y - 1) +
        visualPosToCharIdxInLine ed.contentWidth (lineAt ed.text (y - 1))
          targetVx
          (if ed.getVisualHeightForLine (y - 1) > 0 then
            ed.getVisualHeightForLine (y - 1) - 1 else 0) }
  else ed1

/-- `Editor::cursor_move_down`.  `current_line_height as usize - 1` is
`u16`/`usize` arithmetic; with the cache invariant the height is at least
1, so the `Nat` subtraction is faithful. -/
def Editor.cursorMoveDown (ed : Editor) : Editor :=
  let y := charToLine ed.text ed.cursor
  let startIdx := lineToChar ed.text y
  let vp := charIdxToVisualPosInLine ed.contentWidth (lineAt ed.text y)
    (ed.cursor - startIdx)
  let targetVx := ed.tmpX.getD vp.1
  let ed1 := { ed with tmpX := some targetVx }
  if vp.2 < ed.getVisualHeightForLine y - 1 then
    { ed1 with
      cursor := startIdx + visualPosToCharIdxInLine ed.contentWidth
        (lineAt ed.text y) targetVx (vp.2 + 1) }
  else if y < lenLines ed.text - 1 then
    { ed1 with
      cursor := lineToChar ed.text (y + 1) +
        visualPosToCharIdxInLine ed.contentWidth (lineAt ed.text (y + 1))
          targetVx 0 }
  else ed1

/-- `Editor::execute_command`.  Rust's `&mut self` plus
`Result<CommandEffect>` is modelled as the pair (post-state, `Except`
effect): on `Err` the state carries exactly the mutations performed before
the failing `?`. -/
def executeCommand (ed : Editor) (clip : Clip) (cmd : Command) :
    Editor × Except ClipErr CommandEffect :=
  match cmd with
  | .inputChar ch =>
    match ({ ed with tmpX := none } : Editor).deleteSelection with
    | (ed1, some si) =>
      ({ ed1 with
          text := insertAt ed1.text ed1.cursor [ch],
          cursor := ed1.cursor + 1 },
        .ok (.textChanged si.1 si.2 1))
    | (ed1, Option.none) =>
      ({ ed1 with
          text := insertAt ed1.text ed1.cursor [ch],
          cursor := ed1.cursor + 1 },
        .ok (.textChanged (charToLine ed1.text ed1.cursor) 1 1))
  | .inputEnter =>
    match ({ ed with tmpX := none } : Editor).deleteSelection with
    | (ed1, some si) =>
      ({ ed1 with
          text := insertAt ed1.text ed1.cursor [newlineCh],
          cursor := ed1.cursor + 1 },
        .ok (.textChanged si.1 si.2 2))
    | (ed1, Option.none) =>
      ({ ed1 with
          text := insertAt ed1.text ed1.cursor [newlineCh],
          cursor := ed1.cursor + 1 },
        .ok (.textChanged (charToLine ed1.text ed1.cursor) 1 2))
  | .deleteLeft =>
    match ({ ed with tmpX := none } : Editor).deleteSelection with
    | (ed1, some si) => (ed1, .ok (.textChanged si.1 si.2 1))
    | (ed1, Option.none) =>
      if ed1.cursor > 0 then
        ({ ed1 with
            text := removeRange ed1.text (ed1.cursor - 1) ed1.cursor,
            cursor := ed1.cursor - 1 },
          .ok (.textChanged (charToLine ed1.text (ed1.cursor - 1))
            (lenLines ed1.text
              - lenLines (removeRange ed1.text (ed1.cursor - 1) ed1.cursor)
              + 1) 1))
      else (ed1, .ok .cursorDirty)
  | .deleteRight =>
    match ({ ed with tmpX := none } : Editor).deleteSelection with
    | (ed1, some si) => (ed1, .ok (.textChanged si.1 si.2 1))
    | (ed1, Option.none) =>
      if ed1.cursor < ed1.text.length then
        ({ ed1 with
            text := removeRange ed1.text ed1.cursor (ed1.cursor + 1) },
          .ok (.textChanged (charToLine ed1.text ed1.cursor)
            (lenLines ed1.text
              - lenLines (removeRange ed1.text ed1.cursor (ed1.cursor + 1))
              + 1) 1))
      else (ed1, .ok .cursorDirty)
  | .deleteWordRight =>
    match ({ ed with tmpX := none } : Editor).deleteSelection with
    | (ed1, some si) => (ed1, .ok (.textChanged si.1 si.2 1))
    | (ed1, Option.none) =>
      if ed1.cursor < ed1.text.length then
        ({ ed1 with
            text := removeRange ed1.text ed1.cursor
              (ed1.cursor + deleteWordTotal (ed1.text.drop ed1.cursor)) },
          .ok (.textChanged (charToLine ed1.text ed1.cursor)
            (charToLine ed1.text
                (min (ed1.cursor + deleteWordTotal (ed1.text.drop ed1.cursor))
                  ed1.text.length)
              - charToLine ed1.text ed1.cursor + 1) 1))
      else (ed1, .ok .cursorDirty)
  | .deleteWordLeft =>
    match ({ ed with tmpX := none } : Editor).deleteSelection with
    | (ed1, some si) => (ed1, .ok (.textChanged si.1 si.2 1))
    | (ed1, Option.none) =>
      if ed1.cursor > 0 then
        ({ ed1 with
            text := removeRange ed1.text
              (ed1.cursor - deleteWordTotal ((ed1.text.take ed1.cursor).reverse))
              ed1.cursor,
            cursor := ed1.cursor
              - deleteWordTotal ((ed1.text.take ed1.cursor).reverse) },
          .ok (.textChanged
            (charToLine ed1.text (ed1.cursor
              - deleteWordTotal ((ed1.text.take ed1.cursor).reverse)))
            (charToLine ed1.text ed1.cursor
              - charToLine ed1.text (ed1.cursor
                - deleteWordTotal ((ed1.text.take ed1.cursor).reverse))
              + 1) 1))
      else (ed1, .ok .cursorDirty)
  | .cursorUp => (ed.curorMoveUp, .ok .cursorDirty)
  | .cursorDown => (ed.cursorMoveDown, .ok .cursorDirty)
  | .cursorLeft =>
    (if ed.cursor > 0 then { ed with tmpX := none, cursor := ed.cursor - 1 }
     else { ed with tmpX := none }, .ok .cursorDirty)
  | .cursorRight =>
    (if ed.cursor < ed.text.length then
      { ed with tmpX := none, cursor := ed.cursor + 1 }
     else { ed with tmpX := none }, .ok .cursorDirty)
  | .cursorWordLeft =>
    (if ed.cursor > 0 then
      { ed with
        tmpX := none,
        cursor := ed.cursor - wordNavTotal ((ed.text.take ed.cursor).reverse) }
     else { ed with tmpX := none }, .ok .cursorDirty)
  | .cursorWordRight =>
    (if ed.cursor < ed.text.length then
      { ed with
        tmpX := none,
        cursor := ed.cursor + wordNavTotal (ed.text.drop ed.cursor) }
     else { ed with tmpX := none }, .ok .cursorDirty)
  | .cursorHome =>
    ({ ed with
        tmpX := none,
        cursor := lineToChar ed.text (charToLine ed.text ed.cursor) },
      .ok .cursorDirty)
  | .cursorEnd =>
    ({ ed with
        tmpX := none,
        cursor := lineToChar ed.text (charToLine ed.text ed.cursor)
          + lenCharsWithoutEnding (lineAt ed.text (charToLine ed.text ed.cursor)) },
      .ok .cursorDirty)
  | .cursorPageUp => ({ ed with cursor := 0 }, .ok .cursorDirty)
  | .cursorPageDown => ({ ed with cursor := ed.text.length }, .ok .cursorDirty)
  | .selectAll =>
    ({ ed with
        tmpX := none,
        selectionAnchor := some 0,
        cursor := ed.text.length,
        fullRedrawRequest := true },
      .ok .selectionFixed)
  | .selectLine =>
    ({ ed with
        tmpX := none,
        selectionAnchor :=
          some (lineToChar ed.text (charToLine ed.text ed.cursor)),
        cursor :=
          if charToLine ed.text ed.cursor + 1 < lenLines ed.text then
            lineToChar ed.text (charToLine ed.text ed.cursor + 1)
          else ed.text.length,
        dirtyLines :=
          if charToLine ed.text ed.cursor + 1 < lenLines ed.text then
            insert (charToLine ed.text ed.cursor + 1)
              (insert (charToLine ed.text ed.cursor) ed.dirtyLines)
          else insert (charToLine ed.text ed.cursor) ed.dirtyLines },
      .ok .selectionFixed)
  | .textCopy =>
    match ed.copySelectionToClipboard clip with
    | .error e => (ed, .error e)
    | .ok _ => (ed, .ok .none)
  | .textCopyAndClearSelection =>
    match ed.copySelectionToClipboard clip with
    | .error e => (ed, .error e)
    | .ok _ => (ed.handleSelection false, .ok .cursorDirty)
  | .textPaste =>
    match ed.pasteFromClipboard clip with
    | (ed1, .error e) => (ed1, .error e)
    | (ed1, .ok (some sn)) => (ed1, .ok (.textChanged sn.1 1 sn.2))
    | (ed1, .ok Option.none) => (ed1, .ok .none)
  | .textCut =>
    match ed.copySelectionToClipboard clip with
    | .error e => (ed, .error e)
    | .ok _ =>
      match ed.deleteSelection with
      | (ed1, some si) => (ed1, .ok (.textChanged si.1 si.2 1))
      | (ed1, Option.none) => (ed1, .ok .none)
  | .exit => ({ ed with shouldQuit := true }, .ok .none)

/-! #### Word navigation round trip (C6) -/

lemma consumeWhileKind_append (k : CharKind) (l1 l2 : List Ch)
    (h1 : ∀ c ∈ l1, classifyChar c = k)
    (h2 : ∀ c t, l2 = c :: t → classifyChar c ≠ k) :
    consumeWhileKind k (l1 ++ l2) = (l1.length, l2.head?.map classifyChar) := by
  induction l1 with
  | nil =>
    cases l2 with
    | nil => rfl
    | cons c t =>
      simp only [List.nil_append, consumeWhileKind]
      rw [if_pos (h2 c t rfl)]
      rfl
  | cons x xs ih =>
    have hx : classifyChar x = k := h1 x (List.mem_cons_self _ _)
    simp only [List.cons_append, consumeWhileKind]
    rw [if_neg (by simp [hx])]
    show ((consumeWhileKind k (xs ++ l2)).1 + 1,
      (consumeWhileKind k (xs ++ l2)).2) = _
    rw [ih (fun c hc => h1 c (List.mem_cons_of_mem _ hc))]
    simp [Nat.add_comm]

lemma wordNavTotal_run (run rest : List Ch) (k : CharKind)
    (hrun : run ≠ []) (hk : ∀ c ∈ run, classifyChar c = k)
    (hks : k = CharKind.word ∨ k = CharKind.symbol)
    (hright : ∀ c t, rest = c :: t → classifyChar c ≠ k) :
    wordNavTotal (run ++ rest) = run.length := by
  have hkw : k ≠ CharKind.whitespace := by
    rcases hks with rfl | rfl <;> simp
  have hkn : k ≠ CharKind.newline := by
    rcases hks with rfl | rfl <;> simp
  cases run with
  | nil => exact absurd rfl hrun
  | cons c0 rt =>
    have hc0 : classifyChar c0 = k := hk c0 (List.mem_cons_self _ _)
    simp only [List.cons_append, wordNavTotal]
    rw [hc0, if_neg hkw, if_pos hkn]
    rw [consumeWhileKind_append k rt rest
      (fun c hc => hk c (List.mem_cons_of_mem _ hc)) hright]
    simp [Nat.add_comm]

lemma executeCommand_wordRight (ed : Editor) (clip : Clip)
    (h : ed.cursor < ed.text.length) :
    (executeCommand ed clip .cursorWordRight).1
      = { ed with
          tmpX := none,
          cursor := ed.cursor + wordNavTotal (ed.text.drop ed.cursor) } := by
  simp only [executeCommand]
  rw [if_pos h]

lemma executeCommand_wordLeft (ed : Editor) (clip : Clip)
    (h : 0 < ed.cursor) :
    (executeCommand ed clip .cursorWordLeft).1
      = { ed with
          tmpX := none,
          cursor := ed.cursor
            - wordNavTotal ((ed.text.take ed.cursor).reverse) } := by
  simp only [executeCommand]
  rw [if_pos h]

/-- C6 amended: the round trip `CursorWordRight` then `CursorWordLeft`
restores the cursor whenever the cursor sits at the FIRST character of
a maximal `Word`/`Symbol` run (text decomposed as `pre ++ run ++ rest`
with the cursor at `|pre|`).  This condition is sufficient, not
necessary: e.g. with the cursor on a newline both moves travel exactly
one character, so the round trip also restores such offsets.  Word-right
lands at the END of the run (`|pre| + |run|`) — not past a following
space, so on `"foo bar"` the cursor goes 0 → 3 → 0, not 0 → 4 as the
claim's example states (see the counterexample). -/
theorem c6_amended_word_round_trip (ed : Editor) (clip : Clip)
    (pre run rest : List Ch) (k : CharKind)
    (ht : ed.text = pre ++ run ++ rest)
    (hp : ed.cursor = pre.length)
    (hrun : run ≠ [])
    (hk : ∀ c ∈ run, classifyChar c = k)
    (hks : k = CharKind.word ∨ k = CharKind.symbol)
    (hleft : ∀ c, pre.getLast? = some c → classifyChar c ≠ k)
    (hright : ∀ c t, rest = c :: t → classifyChar c ≠ k) :
    (executeCommand ed clip .cursorWordRight).1.cursor
      = pre.length + run.length ∧
    (executeCommand (executeCommand ed clip .cursorWordRight).1 clip
        .cursorWordLeft).1.cursor = ed.cursor := by
  have hrlen : 0 < run.length := List.length_pos.mpr hrun
  have hlt : ed.cursor < ed.text.length := by
    rw [ht, hp]
    simp
    omega
  have hdrop : ed.text.drop ed.cursor = run ++ rest := by
    rw [ht, hp, List.append_assoc]
    exact List.drop_left _ _
  have hwr := executeCommand_wordRight ed clip hlt
  have hcur1 : (executeCommand ed clip .cursorWordRight).1.cursor
      = pre.length + run.length := by
    rw [hwr]
    show ed.cursor + wordNavTotal (ed.text.drop ed.cursor) = _
    rw [hdrop, wordNavTotal_run run rest k hrun hk hks hright, hp]
  refine ⟨hcur1, ?_⟩
  have htext1 : (executeCommand ed clip .cursorWordRight).1.text = ed.text := by
    rw [hwr]
  have hpos1 : 0 < (executeCommand ed clip .cursorWordRight).1.cursor := by
    rw [hcur1]
    omega
  rw [executeCommand_wordLeft _ clip hpos1]
  show (executeCommand ed clip .cursorWordRight).1.cursor
      - wordNavTotal (((executeCommand ed clip
          .cursorWordRight).1.text.take
        (executeCommand ed clip .cursorWordRight).1.cursor).reverse) = ed.cursor
  rw [hcur1, htext1, ht]
  have htake : (pre ++ run ++ rest).take (pre.length + run.length)
      = pre ++ run := by
    rw [show pre.length + run.length = (pre ++ run).length from by simp]
    exact List.take_left _ _
  rw [htake, List.reverse_append]
  rw [wordNavTotal_run run.reverse pre.reverse k (by simp [hrun])
    (fun c hc => hk c (List.mem_reverse.mp hc)) hks
    (fun c t hct => by
      apply hleft c
      rw [← List.head?_reverse, hct]
      rfl)]
  rw [hp]
  simp

/-- A plain word character (`is_alphanumeric`, width 1). -/
def wordCh : Ch := ⟨1, true, false, false, false⟩

/-- A plain space (whitespace, not a line break, width 1). -/
def spaceCh : Ch := ⟨1, false, true, false, false⟩

/-- The document `"foo bar"` of the claim's concrete example. -/
def fooBarEd : Editor :=
  { text := [wordCh, wordCh, wordCh, spaceCh, wordCh, wordCh, wordCh],
    cursor := 0, selectionAnchor := none, tmpX := none,
    terminalWidth := 80, terminalHeight := 24,
    scrollOffset := ⟨0, 0⟩, cumulativeVisualHeights := [0, 1],
    isDirty := true, fullRedrawRequest := false, dirtyLines := ∅,
    shouldQuit := false }

/-- A clipboard whose operations succeed. -/
def okClip : Clip := ⟨.ok [], .ok ()⟩

/-- C6 counterexample: on `"foo bar"` with the cursor at offset 0 and no
selection, `CursorWordRight` moves the cursor to offset 3 (the end of the
word run `foo`), not to offset 4 as the claim states. -/
theorem c6_counterexample_word_right_offset :
    fooBarEd.cursor = 0 ∧ fooBarEd.selectionAnchor = none ∧
    (executeCommand fooBarEd okClip .cursorWordRight).1.cursor = 3 ∧
    ¬ ((executeCommand fooBarEd okClip .cursorWordRight).1.cursor = 4) := by
  refine ⟨rfl, rfl, by decide, by decide⟩

theorem c6_amended_witness :
    (fooBarEd.text
        = [] ++ [wordCh, wordCh, wordCh] ++ [spaceCh, wordCh, wordCh, wordCh] ∧
      fooBarEd.cursor = ([] : List Ch).length ∧
      ([wordCh, wordCh, wordCh] : List Ch) ≠ [] ∧
      ∀ c ∈ [wordCh, wordCh, wordCh], classifyChar c = CharKind.word) ∧
    ((executeCommand fooBarEd okClip .cursorWordRight).1.cursor
        = ([] : List Ch).length + ([wordCh, wordCh, wordCh] : List Ch).length ∧
      (executeCommand (executeCommand fooBarEd okClip .cursorWordRight).1 okClip
          .cursorWordLeft).1.cursor = fooBarEd.cursor) :=
  ⟨⟨by decide, by decide, by decide, by decide⟩,
    c6_amended_word_round_trip fooBarEd okClip [] [wordCh, wordCh, wordCh]
      [spaceCh, wordCh, wordCh, wordCh] CharKind.word (by decide) (by decide)
      (by decide) (by decide) (Or.inl rfl)
      (by intro c hc; simp at hc)
      (by intro c t hct; cases hct; decide)⟩

/-! #### Clipboard failure semantics (C5) -/

deriving instance DecidableEq for Except

/-- A clipboard whose read and write both fail. -/
def failClip : Clip := ⟨.error .unavailable, .error .unavailable⟩

/-- Editor with text `"abc"` and the active selection `[0, 2)`
(anchor 0, cursor 2). -/
def c5Ed : Editor :=
  { text := [wordCh, wordCh, wordCh],
    cursor := 2, selectionAnchor := some 0, tmpX := none,
    terminalWidth := 80, terminalHeight := 24,
    scrollOffset := ⟨0, 0⟩, cumulativeVisualHeights := [0, 1],
    isDirty := true, fullRedrawRequest := false, dirtyLines := ∅,
    shouldQuit := false }

/-- C5 counterexample: a `TextPaste` whose clipboard read fails does
surface the error to the caller, but it has already deleted the active
selection and moved the cursor — `paste_from_clipboard` runs
`delete_selection` before touching the clipboard — so document text,
cursor offset and selection anchor are all different from what they were
before the command began. -/
theorem c5_counterexample_paste_mutates :
    (executeCommand c5Ed failClip .textPaste).2 = .error .unavailable ∧
    (executeCommand c5Ed failClip .textPaste).1.text ≠ c5Ed.text ∧
    (executeCommand c5Ed failClip .textPaste).1.cursor ≠ c5Ed.cursor ∧
    (executeCommand c5Ed failClip .textPaste).1.selectionAnchor
      ≠ c5Ed.selectionAnchor := by
  refine ⟨by decide, by decide, by decide, by decide⟩

/-- C5 amended: clipboard failures are surfaced to the caller of
`execute_command` as `Err`.  `TextCopy` and `TextCut` fail before any
state change and leave the editor exactly as it was; `TextPaste`, however,
deletes the active selection BEFORE reading the clipboard, so on a failing
read the surviving state is exactly the selection-deleted one (text,
cursor and anchor reflect the deletion, not the pre-command state). -/
theorem c5_amended_clipboard_failure (ed : Editor) (e e' : ClipErr)
    (hsel : ed.selectionAnchor.isSome) :
    executeCommand ed ⟨.error e, .error e'⟩ .textCopy = (ed, .error e') ∧
    executeCommand ed ⟨.error e, .error e'⟩ .textCut = (ed, .error e') ∧
    executeCommand ed ⟨.error e, .error e'⟩ .textPaste
      = (ed.deleteSelection.1, .error e) := by
  obtain ⟨a, hsa⟩ := Option.isSome_iff_exists.mp hsel
  have hcopy : ed.copySelectionToClipboard ⟨.error e, .error e'⟩
      = .error e' := by
    simp [Editor.copySelectionToClipboard, Editor.getSelectionRange, hsa]
  refine ⟨?_, ?_, ?_⟩
  · simp [executeCommand, hcopy]
  · simp [executeCommand, hcopy]
  · rfl

theorem c5_amended_witness :
    c5Ed.selectionAnchor.isSome = true ∧
    (executeCommand c5Ed ⟨.error .unavailable, .error .unavailable⟩ .textCopy
        = (c5Ed, .error .unavailable) ∧
      executeCommand c5Ed ⟨.error .unavailable, .error .unavailable⟩ .textCut
        = (c5Ed, .error .unavailable) ∧
      executeCommand c5Ed ⟨.error .unavailable, .error .unavailable⟩ .textPaste
        = (c5Ed.deleteSelection.1, .error .unavailable)) :=
  ⟨by decide, c5_amended_clipboard_failure c5Ed .unavailable .unavailable
    (by decide)⟩

/-! #### Cursor bounds under every command (C9) -/

lemma consumeWhileKind_fst_le (k : CharKind) (l : List Ch) :
    (consumeWhileKind k l).1 ≤ l.length := by
  induction l with
  | nil => simp [consumeWhileKind]
  | cons c rest ih =>
    by_cases h : classifyChar c ≠ k
    · simp [consumeWhileKind, h]
    · simp only [consumeWhileKind, if_neg h]
      show (consumeWhileKind k rest).1 + 1 ≤ rest.length + 1
      omega

lemma consumeWhileKind_some_lt (k : CharKind) (l : List Ch) (k' : CharKind) :
    (consumeWhileKind k l).2 = some k' → (consumeWhileKind k l).1 < l.length := by
  induction l with
  | nil => intro h; simp [consumeWhileKind] at h
  | cons c rest ih =>
    intro h
    by_cases hcne : classifyChar c ≠ k
    · simp [consumeWhileKind, hcne]
    · simp only [consumeWhileKind, if_neg hcne] at h ⊢
      show (consumeWhileKind k rest).1 + 1 < rest.length + 1
      have h' : (consumeWhileKind k rest).2 = some k' := h
      have := ih h'
      omega

lemma wordNavTotal_le (chars : List Ch) : wordNavTotal chars ≤ chars.length := by
  cases chars with
  | nil => simp [wordNavTotal]
  | cons initial rest =>
    simp only [wordNavTotal]
    by_cases hw : classifyChar initial = CharKind.whitespace
    · rw [if_pos hw]
      split
      · have h1 := consumeWhileKind_fst_le CharKind.whitespace rest
        simp only [List.length_cons]
        omega
      · next k2 hnk =>
        have h1 := consumeWhileKind_some_lt CharKind.whitespace rest k2 hnk
        by_cases hk2 : k2 ≠ CharKind.newline
        · rw [if_pos hk2]
          have h2 := consumeWhileKind_fst_le k2
            (rest.drop ((consumeWhileKind CharKind.whitespace rest).1 + 1))
          rw [List.length_drop] at h2
          simp only [List.length_cons]
          omega
        · rw [if_neg hk2]
          simp only [List.length_cons]
          omega
    · rw [if_neg hw]
      by_cases hn : classifyChar initial ≠ CharKind.newline
      · rw [if_pos hn]
        have h1 := consumeWhileKind_fst_le (classifyChar initial) rest
        simp only [List.length_cons]
        omega
      · rw [if_neg hn]
        simp

lemma deleteWordTotal_le (chars : List Ch) : deleteWordTotal chars ≤ chars.length := by
  cases chars with
  | nil => simp [deleteWordTotal]
  | cons initial rest =>
    simp only [deleteWordTotal]
    by_cases hn : classifyChar initial ≠ CharKind.newline
    · rw [if_pos hn]
      have := consumeWhileKind_fst_le (classifyChar initial) rest
      simp only [List.length_cons]
      omega
    · rw [if_neg hn]
      simp

lemma lenCharsWithoutEnding_le (l : Text) : lenCharsWithoutEnding l ≤ l.length := by
  unfold lenCharsWithoutEnding
  split_ifs <;> omega

lemma removeRange_length (t : Text) (s e : Nat) :
    (removeRange t s e).length = min s t.length + (t.length - e) := by
  simp [removeRange]

lemma insertAt_length (t : Text) (i : Nat) (ins : Text) :
    (insertAt t i ins).length = min i t.length + ins.length + (t.length - i) := by
  simp [insertAt]
  omega

lemma textLines_flatten (t : Text) : (textLines t).flatten = t := by
  induction t with
  | nil => rfl
  | cons c rest ih =>
    by_cases h : c.lf
    · simp [textLines, h, ih]
    · simp only [textLines, if_neg h]
      cases htl : textLines rest with
      | nil => exact absurd htl (textLines_ne_nil rest)
      | cons l ls =>
        rw [htl] at ih
        simp only [List.flatten_cons] at ih ⊢
        rw [List.cons_append, ih]

lemma lineToChar_le (t : Text) (l : Nat) : lineToChar t l ≤ t.length := by
  unfold lineToChar
  have h1 : (((textLines t).take l).map List.length).sum
      ≤ ((textLines t).map List.length).sum := by
    conv_rhs => rw [← List.take_append_drop l (textLines t)]
    rw [List.map_append, List.sum_append]
    omega
  have h2 : ((textLines t).map List.length).sum = t.length := by
    rw [← List.length_flatten, textLines_flatten]
  omega

lemma lineToChar_add_lineAt_le (t : Text) (y : Nat) (h : y < lenLines t) :
    lineToChar t y + (lineAt t y).length ≤ t.length := by
  have h1 : lineToChar t (y + 1) = lineToChar t y + (lineAt t y).length :=
    sum_map_take_succ List.length (textLines t) y h
  have h2 := lineToChar_le t (y + 1)
  omega

lemma lenLines_eq_count (t : Text) :
    lenLines t = (t.filter (fun c => c.lf)).length + 1 := by
  induction t with
  | nil => rfl
  | cons c rest ih =>
    by_cases h : c.lf
    · show (textLines (c :: rest)).length = _
      simp only [textLines, if_pos h]
      rw [List.filter_cons, if_pos (by simpa using h)]
      simp only [List.length_cons]
      have : (textLines rest).length = (rest.filter (fun c => c.lf)).length + 1 :=
        ih
      omega
    · show (textLines (c :: rest)).length = _
      simp only [textLines, if_neg h]
      rw [List.filter_cons, if_neg (by simpa using h)]
      cases htl : textLines rest with
      | nil => exact absurd htl (textLines_ne_nil rest)
      | cons l ls =>
        have : (textLines rest).length = (rest.filter (fun c => c.lf)).length + 1 :=
          ih
        rw [htl] at this
        simp only [List.length_cons] at this ⊢
        omega

lemma charToLine_lt (t : Text) (i : Nat) : charToLine t i < lenLines t := by
  unfold charToLine
  have h1 : ((t.take i).filter (fun c => c.lf)).length
      ≤ (t.filter (fun c => c.lf)).length := by
    conv_rhs => rw [← List.take_append_drop i t]
    rw [List.filter_append, List.length_append]
    omega
  have h2 := lenLines_eq_count t
  omega

lemma vp2ciAux_le (cw tvx tvy n : Nat) :
    ∀ (l : List (Nat × Ch)) (vx vy lastIdx : Nat),
      (∀ p ∈ l, p.1 ≤ n) → lastIdx ≤ n →
      ∀ i, vp2ciAux cw tvx tvy l vx vy lastIdx = some i → i ≤ n := by
  intro l
  induction l with
  | nil => intro vx vy lastIdx _ _ i h; simp [vp2ciAux] at h
  | cons p rest ih =>
    intro vx vy lastIdx hl hlast i h
    obtain ⟨j, c⟩ := p
    have hj : j ≤ n := hl (j, c) (List.mem_cons_self _ _)
    have hrest : ∀ p ∈ rest, p.1 ≤ n :=
      fun p hp => hl p (List.mem_cons_of_mem _ hp)
    simp only [vp2ciAux] at h
    split at h
    · cases h; exact hlast
    · split at h
      · cases h; exact hj
      · split at h
        · exact ih c.width (vy + 1) j hrest hj i h
        · exact ih (vx + c.width) vy j hrest hj i h

lemma visualPosToCharIdxInLine_le (cw : Nat) (line : Text) (tvx tvy : Nat) :
    visualPosToCharIdxInLine cw line tvx tvy ≤ line.length := by
  unfold visualPosToCharIdxInLine
  cases hres : vp2ciAux cw tvx tvy line.enum 0 0 0 with
  | none => exact lenCharsWithoutEnding_le line
  | some i =>
    exact vp2ciAux_le cw tvx tvy line.length line.enum 0 0 0
      (fun p hp => le_of_lt (by
        obtain ⟨j, c⟩ := p
        exact List.fst_lt_of_mem_enum hp))
      (Nat.zero_le _) i hres

lemma deleteSelection_bound (ed : Editor)
    (hc : ed.cursor ≤ ed.text.length)
    (ha : ∀ a ∈ ed.selectionAnchor, a ≤ ed.text.length) :
    (ed.deleteSelection.1).cursor ≤ (ed.deleteSelection.1).text.length := by
  unfold Editor.deleteSelection Editor.getSelectionRange
  cases hso : ed.selectionAnchor with
  | none => simpa using hc
  | some a =>
    have haa : a ≤ ed.text.length := ha a (by simp [hso])
    by_cases hca : ed.cursor < a
    · simp only [Option.map_some', if_pos hca]
      show ed.cursor ≤ (removeRange ed.text ed.cursor a).length
      rw [removeRange_length]
      omega
    · simp only [Option.map_some', if_neg hca]
      show a ≤ (removeRange ed.text a ed.cursor).length
      rw [removeRange_length]
      omega

lemma pasteFromClipboard_bound (ed : Editor) (clip : Clip)
    (hc : ed.cursor ≤ ed.text.length)
    (ha : ∀ a ∈ ed.selectionAnchor, a ≤ ed.text.length) :
    ((ed.pasteFromClipboard clip).1).cursor
      ≤ ((ed.pasteFromClipboard clip).1).text.length := by
  have hds := deleteSelection_bound ed hc ha
  unfold Editor.pasteFromClipboard
  cases hg : clip.getText with
  | error e => simpa using hds
  | ok toPaste =>
    show (ed.deleteSelection.1).cursor + toPaste.length
      ≤ (insertAt (ed.deleteSelection.1).text
          (ed.deleteSelection.1).cursor toPaste).length
    rw [insertAt_length]
    omega

lemma handleSelection_cursor (ed : Editor) (b : Bool) :
    (ed.handleSelection b).cursor = ed.cursor := by
  unfold Editor.handleSelection
  split
  · split <;> rfl
  · split <;> rfl

lemma handleSelection_text (ed : Editor) (b : Bool) :
    (ed.handleSelection b).text = ed.text := by
  unfold Editor.handleSelection
  split
  · split <;> rfl
  · split <;> rfl

lemma curorMoveUp_bound (ed : Editor) (hc : ed.cursor ≤ ed.text.length) :
    (ed.curorMoveUp).cursor ≤ (ed.curorMoveUp).text.length := by
  have hy := charToLine_lt ed.text ed.cursor
  simp only [Editor.curorMoveUp]
  split_ifs with h1 h2 h3
  · have hb := lineToChar_add_lineAt_le ed.text
      (charToLine ed.text ed.cursor) hy
    exact le_trans
      (Nat.add_le_add_left (visualPosToCharIdxInLine_le _ _ _ _) _) hb
  · have hb := lineToChar_add_lineAt_le ed.text
      (charToLine ed.text ed.cursor - 1) (by omega)
    exact le_trans
      (Nat.add_le_add_left (visualPosToCharIdxInLine_le _ _ _ _) _) hb
  · have hb := lineToChar_add_lineAt_le ed.text
      (charToLine ed.text ed.cursor - 1) (by omega)
    exact le_trans
      (Nat.add_le_add_left (visualPosToCharIdxInLine_le _ _ _ _) _) hb
  · exact hc

lemma cursorMoveDown_bound (ed : Editor) (hc : ed.cursor ≤ ed.text.length) :
    (ed.cursorMoveDown).cursor ≤ (ed.cursorMoveDown).text.length := by
  have hy := charToLine_lt ed.text ed.cursor
  simp only [Editor.cursorMoveDown]
  split_ifs with h1 h2
  · have hb := lineToChar_add_lineAt_le ed.text
      (charToLine ed.text ed.cursor) hy
    exact le_trans
      (Nat.add_le_add_left (visualPosToCharIdxInLine_le _ _ _ _) _) hb
  · have hb := lineToChar_add_lineAt_le ed.text
      (charToLine ed.text ed.cursor + 1) (by omega)
    exact le_trans
      (Nat.add_le_add_left (visualPosToCharIdxInLine_le _ _ _ _) _) hb
  · exact hc

/-- C9: for every command in the `Command` enumeration and every editor
state whose cursor and selection anchor lie within the document
(`0 ≤ idx ≤ len_chars`, indices being `Nat`; the anchor is itself a
cursor position per the data model), after `execute_command` returns —
under any clipboard outcome — the cursor still satisfies
`cursor ≤ text.len_chars()` with respect to the possibly modified text. -/
theorem c9_cursor_stays_in_bounds (ed : Editor) (clip : Clip) (cmd : Command)
    (hc : ed.cursor ≤ ed.text.length)
    (ha : ∀ a ∈ ed.selectionAnchor, a ≤ ed.text.length) :
    (executeCommand ed clip cmd).1.cursor
      ≤ (executeCommand ed clip cmd).1.text.length := by
  have hds0 : ∀ (x : Editor), x.cursor ≤ x.text.length →
      (∀ a ∈ x.selectionAnchor, a ≤ x.text.length) →
      (x.deleteSelection.1).cursor ≤ (x.deleteSelection.1).text.length :=
    fun x h1 h2 => deleteSelection_bound x h1 h2
  cases cmd with
  | inputChar ch =>
    simp only [executeCommand]
    cases hmatch : ({ ed with tmpX := none } : Editor).deleteSelection with
    | mk ed1 si =>
      have hb : ed1.cursor ≤ ed1.text.length := by
        have h := hds0 { ed with tmpX := none } hc ha
        rw [hmatch] at h
        exact h
      cases si with
      | none =>
        show ed1.cursor + 1 ≤ (insertAt ed1.text ed1.cursor [ch]).length
        rw [insertAt_length, Nat.min_eq_left hb]
        simp only [List.length_cons, List.length_nil]
        omega
      | some p =>
        show ed1.cursor + 1 ≤ (insertAt ed1.text ed1.cursor [ch]).length
        rw [insertAt_length, Nat.min_eq_left hb]
        simp only [List.length_cons, List.length_nil]
        omega
  | inputEnter =>
    simp only [executeCommand]
    cases hmatch : ({ ed with tmpX := none } : Editor).deleteSelection with
    | mk ed1 si =>
      have hb : ed1.cursor ≤ ed1.text.length := by
        have h := hds0 { ed with tmpX := none } hc ha
        rw [hmatch] at h
        exact h
      cases si with
      | none =>
        show ed1.cursor + 1 ≤ (insertAt ed1.text ed1.cursor [newlineCh]).length
        rw [insertAt_length, Nat.min_eq_left hb]
        simp only [List.length_cons, List.length_nil]
        omega
      | some p =>
        show ed1.cursor + 1 ≤ (insertAt ed1.text ed1.cursor [newlineCh]).length
        rw [insertAt_length, Nat.min_eq_left hb]
        simp only [List.length_cons, List.length_nil]
        omega
  | deleteLeft =>
    simp only [executeCommand]
    cases hmatch : ({ ed with tmpX := none } : Editor).deleteSelection with
    | mk ed1 si =>
      have hb : ed1.cursor ≤ ed1.text.length := by
        have h := hds0 { ed with tmpX := none } hc ha
        rw [hmatch] at h
        exact h
      cases si with
      | some p => exact hb
      | none =>
        dsimp only
        split_ifs with hpos
        · show ed1.cursor - 1
            ≤ (removeRange ed1.text (ed1.cursor - 1) ed1.cursor).length
          rw [removeRange_length]
          omega
        · exact hb
  | deleteRight =>
    simp only [executeCommand]
    cases hmatch : ({ ed with tmpX := none } : Editor).deleteSelection with
    | mk ed1 si =>
      have hb : ed1.cursor ≤ ed1.text.length := by
        have h := hds0 { ed with tmpX := none } hc ha
        rw [hmatch] at h
        exact h
      cases si with
      | some p => exact hb
      | none =>
        dsimp only
        split_ifs with hpos
        · show ed1.cursor
            ≤ (removeRange ed1.text ed1.cursor (ed1.cursor + 1)).length
          rw [removeRange_length]
          omega
        · exact hb
  | deleteWordRight =>
    simp only [executeCommand]
    cases hmatch : ({ ed with tmpX := none } : Editor).deleteSelection with
    | mk ed1 si =>
      have hb : ed1.cursor ≤ ed1.text.length := by
        have h := hds0 { ed with tmpX := none } hc ha
        rw [hmatch] at h
        exact h
      cases si with
      | some p => exact hb
      | none =>
        dsimp only
        split_ifs with hpos
        · have htot := deleteWordTotal_le (ed1.text.drop ed1.cursor)
          rw [List.length_drop] at htot
          show ed1.cursor ≤ (removeRange ed1.text ed1.cursor
            (ed1.cursor + deleteWordTotal (ed1.text.drop ed1.cursor))).length
          rw [removeRange_length]
          omega
        · exact hb
  | deleteWordLeft =>
    simp only [executeCommand]
    cases hmatch : ({ ed with tmpX := none } : Editor).deleteSelection with
    | mk ed1 si =>
      have hb : ed1.cursor ≤ ed1.text.length := by
        have h := hds0 { ed with tmpX := none } hc ha
        rw [hmatch] at h
        exact h
      cases si with
      | some p => exact hb
      | none =>
        dsimp only
        split_ifs with hpos
        · have htot := deleteWordTotal_le ((ed1.text.take ed1.cursor).reverse)
          rw [List.length_reverse, List.length_take] at htot
          show ed1.cursor - deleteWordTotal ((ed1.text.take ed1.cursor).reverse)
            ≤ (removeRange ed1.text
              (ed1.cursor - deleteWordTotal ((ed1.text.take ed1.cursor).reverse))
              ed1.cursor).length
          rw [removeRange_length]
          omega
        · exact hb
  | cursorUp =>
    simp only [executeCommand]
    exact curorMoveUp_bound ed hc
  | cursorDown =>
    simp only [executeCommand]
    exact cursorMoveDown_bound ed hc
  | cursorLeft =>
    simp only [executeCommand]
    split_ifs with h
    · show ed.cursor - 1 ≤ ed.text.length
      omega
    · exact hc
  | cursorRight =>
    simp only [executeCommand]
    split_ifs with h
    · show ed.cursor + 1 ≤ ed.text.length
      omega
    · exact hc
  | cursorWordLeft =>
    simp only [executeCommand]
    split_ifs with h
    · show ed.cursor - wordNavTotal ((ed.text.take ed.cursor).reverse)
        ≤ ed.text.length
      omega
    · exact hc
  | cursorWordRight =>
    simp only [executeCommand]
    split_ifs with h
    · have htot := wordNavTotal_le (ed.text.drop ed.cursor)
      rw [List.length_drop] at htot
      show ed.cursor + wordNavTotal (ed.text.drop ed.cursor) ≤ ed.text.length
      omega
    · exact hc
  | cursorHome =>
    simp only [executeCommand]
    show lineToChar ed.text (charToLine ed.text ed.cursor) ≤ ed.text.length
    exact lineToChar_le _ _
  | cursorEnd =>
    simp only [executeCommand]
    have h1 := lenCharsWithoutEnding_le
      (lineAt ed.text (charToLine ed.text ed.cursor))
    have h2 := lineToChar_add_lineAt_le ed.text
      (charToLine ed.text ed.cursor) (charToLine_lt _ _)
    show lineToChar ed.text (charToLine ed.text ed.cursor)
        + lenCharsWithoutEnding (lineAt ed.text (charToLine ed.text ed.cursor))
      ≤ ed.text.length
    omega
  | cursorPageUp =>
    simp only [executeCommand]
    exact Nat.zero_le _
  | cursorPageDown =>
    simp only [executeCommand]
    exact le_refl _
  | selectAll =>
    simp only [executeCommand]
    exact le_refl _
  | selectLine =>
    simp only [executeCommand]
    split_ifs with h
    · show lineToChar ed.text (charToLine ed.text ed.cursor + 1)
        ≤ ed.text.length
      exact lineToChar_le _ _
    · exact le_refl _
  | textCopy =>
    simp only [executeCommand]
    cases hm : ed.copySelectionToClipboard clip with
    | error e => exact hc
    | ok u => exact hc
  | textCopyAndClearSelection =>
    simp only [executeCommand]
    cases hm : ed.copySelectionToClipboard clip with
    | error e => exact hc
    | ok u =>
      have h1 := handleSelection_cursor ed false
      have h2 := handleSelection_text ed false
      show (ed.handleSelection false).cursor
        ≤ (ed.handleSelection false).text.length
      rw [h1, h2]
      exact hc
  | textPaste =>
    simp only [executeCommand]
    have hp := pasteFromClipboard_bound ed clip hc ha
    cases hm : ed.pasteFromClipboard clip with
    | mk ed1 res =>
      rw [hm] at hp
      have hp2 : ed1.cursor ≤ ed1.text.length := hp
      cases res with
      | error e => exact hp2
      | ok o =>
        cases o with
        | none => exact hp2
        | some sn => exact hp2
  | textCut =>
    simp only [executeCommand]
    cases hm : ed.copySelectionToClipboard clip with
    | error e => exact hc
    | ok u =>
      cases hmatch : ed.deleteSelection with
      | mk ed1 si =>
        have hb : ed1.cursor ≤ ed1.text.length := by
          have h := hds0 ed hc ha
          rw [hmatch] at h
          exact h
        cases si with
        | some p => exact hb
        | none => exact hb
  | exit =>
    simp only [executeCommand]
    exact hc

theorem c9_witness :
    (fooBarEd.cursor ≤ fooBarEd.text.length ∧
      ∀ a ∈ fooBarEd.selectionAnchor, a ≤ fooBarEd.text.length) ∧
    (executeCommand fooBarEd okClip .cursorPageDown).1.cursor
      ≤ (executeCommand fooBarEd okClip .cursorPageDown).1.text.length :=
  ⟨⟨by decide, by decide⟩,
    c9_cursor_stays_in_bounds fooBarEd okClip .cursorPageDown (by decide)
      (by decide)⟩

end OJEdit

